import Mathlib

/-!
# The multi-vector quasi-Newton post-processing of preCICE

A shallow embedding of `src/cplscheme/impl/MVQNPostProcessing.cpp` in exact
arithmetic over an arbitrary field `K`, in the single-process configuration
(no master-slave mode), together with the properties stated about it.  The
ring of processes that `initialize` sets up in master-slave mode and the
element tree of `src/xml/ConfigParser.cpp` follow in parts of their own.

Dense matrices are dynamically sized, as `Eigen::MatrixXd` is: a row count, a
column count and a coefficient function, of which only the coefficients inside
the dimensions carry a meaning.
-/

namespace precice

open Finset

/-! ## Dense matrices and vectors -/

/-- Dynamically sized dense matrix, `Eigen::MatrixXd`. -/
structure MatrixXd (K : Type) where
  rows : Nat
  cols : Nat
  coeff : Nat → Nat → K

/-- Dynamically sized dense vector, `Eigen::VectorXd`. -/
structure VectorXd (K : Type) where
  size : Nat
  coeff : Nat → K

namespace MatrixXd

variable {K : Type}

/-- Number of coefficients, `rows() * cols()`. -/
def size (A : MatrixXd K) : Nat := A.rows * A.cols

/-- The matrix `Eigen::MatrixXd::Zero(r, c)`. -/
def Zero [Zero K] (r c : Nat) : MatrixXd K := ⟨r, c, fun _ _ => 0⟩

/-- Column `j` of a matrix, `A.col(j)`. -/
def col (A : MatrixXd K) (j : Nat) : VectorXd K := ⟨A.rows, fun i => A.coeff i j⟩

/-- Row `i` of a matrix copied into a vector, `Eigen::VectorXd Qrow = A.row(i)`. -/
def row (A : MatrixXd K) (i : Nat) : VectorXd K := ⟨A.cols, fun j => A.coeff i j⟩

/-- Assignment `A.col(j) = v`. -/
def setCol (A : MatrixXd K) (j : Nat) (v : VectorXd K) : MatrixXd K :=
  { A with coeff := fun i k => if k = j then v.coeff i else A.coeff i k }

/-- Coefficient-wise sum `A + B` (dimensions of the left operand). -/
def add [Add K] (A B : MatrixXd K) : MatrixXd K :=
  ⟨A.rows, A.cols, fun i j => A.coeff i j + B.coeff i j⟩

/-- Scaling in place, `A *= c`. -/
def scale [Mul K] (A : MatrixXd K) (c : K) : MatrixXd K :=
  { A with coeff := fun i j => A.coeff i j * c }

/-- Dense product `A * x` of a matrix with a vector. -/
def mulVec [Semiring K] (A : MatrixXd K) (x : VectorXd K) : VectorXd K :=
  ⟨A.rows, fun i => ∑ k in range A.cols, A.coeff i k * x.coeff k⟩

/-- `A.conservativeResize(r, c)`: new dimensions, the coefficients that stay
inside keep their value. -/
def conservativeResize (A : MatrixXd K) (r c : Nat) : MatrixXd K := { A with rows := r, cols := c }

/-- Two matrices are the same matrix: same dimensions and the same coefficient
at every position inside them. -/
def Same (A B : MatrixXd K) : Prop :=
  A.rows = B.rows ∧ A.cols = B.cols ∧ ∀ i < A.rows, ∀ j < A.cols, A.coeff i j = B.coeff i j

/-- The `r × c` top-left block as a Mathlib matrix. -/
def toMatrix (A : MatrixXd K) (r c : Nat) : Matrix (Fin r) (Fin c) K :=
  fun i j => A.coeff i j

end MatrixXd

namespace VectorXd

variable {K : Type}

/-- Negation `-x`. -/
def neg [Neg K] (x : VectorXd K) : VectorXd K := ⟨x.size, fun i => - x.coeff i⟩

/-- Coefficient-wise sum `x + y`. -/
def add [Add K] (x y : VectorXd K) : VectorXd K := ⟨x.size, fun i => x.coeff i + y.coeff i⟩

/-- Coefficient-wise difference `x - y`. -/
def sub [Sub K] (x y : VectorXd K) : VectorXd K := ⟨x.size, fun i => x.coeff i - y.coeff i⟩

/-- The first `n` coefficients as a Mathlib vector. -/
def toVec (x : VectorXd K) (n : Nat) : Fin n → K := fun i => x.coeff i

end VectorXd

/-! ## Collaborators of the accelerator -/

/-- State of one back-substitution after the last `k` rows of the upper
triangle of `R` were solved, starting from the right-hand side (the solve is
done in place on a copy of `b`). -/
def backSubstitution {K : Type} [Field K] (R : MatrixXd K) (b : VectorXd K) : Nat → Nat → K
  | 0 => b.coeff
  | k + 1 =>
    let y := backSubstitution R b k
    let i := R.rows - (k + 1)
    Function.update y i
      ((b.coeff i - ∑ j in Ico (i + 1) R.rows, R.coeff i j * y j) / R.coeff i i)

/-- The call `R.triangularView<Eigen::Upper>().solve<Eigen::OnTheLeft>(b)`:
the solution of `U y = b` by back-substitution, `U` the upper triangle of `R`. -/
def triangularSolveUpper {K : Type} [Field K] (R : MatrixXd K) (b : VectorXd K) : VectorXd K :=
  ⟨R.cols, backSubstitution R b R.rows⟩

/-- The QR factorisation object `_qrV` kept by the base class, seen through its
accessors `matrixQ()`, `matrixR()`, `rows()` and `cols()`. -/
structure QRFactorization (K : Type) where
  matrixQ : MatrixXd K
  matrixR : MatrixXd K
  rows : Nat
  cols : Nat

/-- Modelled from the spec: `ParallelMatrixOperations::multiply` for matrices
(the Distributed Matrix Operations of section 4.2), whose source is not part of
the shown files. "Single-process configuration → collapses to ordinary dense
multiply with no communication": the result is the `p × r` product of the
`p × q` left operand with the `q × r` right operand. -/
def multiply {K : Type} [Semiring K] (left right : MatrixXd K) (p q r : Nat) : MatrixXd K :=
  ⟨p, r, fun i j => ∑ k in range q, left.coeff i k * right.coeff k j⟩

/-- Modelled from the spec: `ParallelMatrixOperations::multiply` with a vector
as right operand and result (`r = 1`), single-process configuration. -/
def multiplyVec {K : Type} [Semiring K] (left : MatrixXd K) (right : VectorXd K)
    (p q : Nat) : VectorXd K :=
  ⟨p, fun i => ∑ k in range q, left.coeff i k * right.coeff k⟩

/-- Modelled from the spec: the helper `utils::appendFront` of the Eigen helper
functions, not part of the shown files: "insert as newest column". The vector
becomes column 0, the old columns move one place to the right. -/
def appendFront {K : Type} (A : MatrixXd K) (v : VectorXd K) : MatrixXd K :=
  ⟨v.size, A.cols + 1, fun i j => if j = 0 then v.coeff i else A.coeff i (j - 1)⟩

/-- Modelled from the spec: the helper `utils::shiftSetFirst`, not part of the
shown files: "evict the oldest column and insert (ring-buffer)". The vector
becomes column 0, the old columns move one place to the right and the last one
is lost; the dimensions stay. -/
def shiftSetFirst {K : Type} (A : MatrixXd K) (v : VectorXd K) : MatrixXd K :=
  ⟨A.rows, A.cols, fun i j => if j = 0 then v.coeff i else A.coeff i (j - 1)⟩

/-- Modelled from the spec: the helper `utils::removeColumnFromMatrix`, not
part of the shown files: "evicts a column". The columns right of `col` move one
place to the left and the column count drops by one. -/
def removeColumnFromMatrix {K : Type} (A : MatrixXd K) (col : Nat) : MatrixXd K :=
  ⟨A.rows, A.cols - 1, fun i j => if j < col then A.coeff i j else A.coeff i (j + 1)⟩

/-- Modelled from the spec: the preconditioner, "a scaling transform applied
before linear algebra to improve numerical conditioning, reverted afterward",
with "`apply`/`revert` on a matrix or vector with an optional transpose-like
flag": a diagonal scaling by one weight per unknown, and the signal "whether
the decomposition must be recomputed after a preconditioner change". -/
structure Preconditioner (K : Type) where
  weights : Nat → K
  requireNewQR : Bool

namespace Preconditioner

variable {K : Type} [Field K]

/-- The call `apply(M, transpose)`: rows are scaled by the weights, columns when
`transpose` is set. -/
def apply (P : Preconditioner K) (M : MatrixXd K) (transpose : Bool) : MatrixXd K :=
  { M with coeff := fun i j => M.coeff i j * P.weights (if transpose then j else i) }

/-- The call `revert(M, transpose)`: the scaling by the inverse weights. -/
def revert (P : Preconditioner K) (M : MatrixXd K) (transpose : Bool) : MatrixXd K :=
  { M with coeff := fun i j => M.coeff i j / P.weights (if transpose then j else i) }

/-- The call `apply(v)` on a vector, and `apply(M)` on a matrix is `apply(M, false)`. -/
def applyVec (P : Preconditioner K) (v : VectorXd K) : VectorXd K :=
  { v with coeff := fun i => v.coeff i * P.weights i }

/-- The call `revert(v)` on a vector. -/
def revertVec (P : Preconditioner K) (v : VectorXd K) : VectorXd K :=
  { v with coeff := fun i => v.coeff i / P.weights i }

/-- The call `newQRfulfilled()`. -/
def newQRfulfilled (P : Preconditioner K) : Preconditioner K := { P with requireNewQR := false }

end Preconditioner

/-- The filter kinds of `PostProcessing`; only `QR2FILTER` is told apart. -/
inductive Filter where
  | QR2FILTER
  | other (id : Int)
  deriving DecidableEq

/-! ## The accelerator -/

/-- The members of `MVQNPostProcessing` and of its base class
`BaseQNPostProcessing` that the shown methods read or write. -/
structure MVQNPostProcessing (K : Type) where
  _forceInitialRelaxation : Bool
  _maxIterationsUsed : Int
  _timestepsReused : Int
  _filter : Filter
  _preconditioner : Preconditioner K
  _firstIteration : Bool
  _firstTimeStep : Bool
  _hasNodesOnInterface : Bool
  _resetLS : Bool
  _residuals : VectorXd K
  _matrixV : MatrixXd K
  _matrixW : MatrixXd K
  _qrV : QRFactorization K
  _Wtil : MatrixXd K
  _invJacobian : MatrixXd K
  _oldInvJacobian : MatrixXd K

section Accelerator

variable {K : Type} [Field K]

/-- Modelled from the spec: `BaseQNPostProcessing::getLSSystemCols`, the
"active history system" column count: the number of columns of `V`. -/
def getLSSystemCols (s : MVQNPostProcessing K) : Nat := s._matrixV.cols

/-- Modelled from the spec: `BaseQNPostProcessing::getLSSystemRows`, the
"active history system" row count: without master-slave mode the number of
local unknowns, the size of the residual vector. -/
def getLSSystemRows (s : MVQNPostProcessing K) : Nat := s._residuals.size

/-- Modelled from the spec: `BaseQNPostProcessing::initialize`, the state of
the shared history scaffolding at accelerator init: `entries` local unknowns,
an empty history and nothing marked stale. -/
def BaseQNPostProcessing.initialise (forceInitialRelaxation : Bool)
    (maxIterationsUsed timestepsReused : Int) (filter : Filter)
    (preconditioner : Preconditioner K) (entries : Nat) : MVQNPostProcessing K where
  _forceInitialRelaxation := forceInitialRelaxation
  _maxIterationsUsed := maxIterationsUsed
  _timestepsReused := timestepsReused
  _filter := filter
  _preconditioner := preconditioner
  _firstIteration := true
  _firstTimeStep := true
  _hasNodesOnInterface := true
  _resetLS := false
  _residuals := ⟨entries, fun _ => 0⟩
  _matrixV := MatrixXd.Zero 0 0
  _matrixW := MatrixXd.Zero 0 0
  _qrV := ⟨MatrixXd.Zero entries 0, MatrixXd.Zero 0 0, entries, 0⟩
  _Wtil := MatrixXd.Zero 0 0
  _invJacobian := MatrixXd.Zero 0 0
  _oldInvJacobian := MatrixXd.Zero 0 0

/-- The method `MVQNPostProcessing::initialize` without master-slave mode: after
the initialisation of the base class, both Jacobians are zero matrices of
`global_n × entries` coefficients with `global_n = entries`, and `_Wtil` has
`entries` rows and no column. -/
def initialise (base : MVQNPostProcessing K) : MVQNPostProcessing K :=
  let entries := base._residuals.size
  let global_n := entries
  { base with
    _invJacobian := MatrixXd.Zero global_n entries
    _oldInvJacobian := MatrixXd.Zero global_n entries
    _Wtil := MatrixXd.Zero entries 0 }

/-- Modelled from the spec: `BaseQNPostProcessing::updateDifferenceMatrices`,
the shared scaffolding that extends `V` and `W`: the new residual is stored and,
outside the first iteration, the new input delta and output delta become
column 0 of `V` and `W`, "insert as newest column if the column bound is not
yet reached and the system is not yet overdetermined, otherwise evict the
oldest column and insert (ring-buffer)"; `qr` is the decomposition of the
extended `V` as the scaffolding keeps it. -/
def BaseQNPostProcessing.updateDifferenceMatrices (residuals deltaR deltaXTilde : VectorXd K)
    (qr : QRFactorization K) (s : MVQNPostProcessing K) : MVQNPostProcessing K :=
  let s := { s with _residuals := residuals }
  if s._firstIteration && (s._firstTimeStep || s._forceInitialRelaxation) then s
  else if !s._firstIteration then
    let columnLimitReached : Bool := ((getLSSystemCols s : Int) = s._maxIterationsUsed)
    let overdetermined : Bool := getLSSystemCols s ≤ getLSSystemRows s
    if !columnLimitReached && overdetermined then
      { s with _matrixV := appendFront s._matrixV deltaR
               _matrixW := appendFront s._matrixW deltaXTilde
               _qrV := qr }
    else
      { s with _matrixV := shiftSetFirst s._matrixV deltaR
               _matrixW := shiftSetFirst s._matrixW deltaXTilde
               _qrV := qr }
  else s

/-- The method `MVQNPostProcessing::updateDifferenceMatrices`: after the update
of `V` and `W` by the base class, outside the first iteration the column
`w - J_prev * v` of the newest deltas is put in front of `_Wtil`, appended
unless the column limit is reached or the system is not overdetermined. -/
def updateDifferenceMatrices (residuals deltaR deltaXTilde : VectorXd K)
    (qr : QRFactorization K) (s : MVQNPostProcessing K) : MVQNPostProcessing K :=
  let s := BaseQNPostProcessing.updateDifferenceMatrices residuals deltaR deltaXTilde qr s
  if s._firstIteration && (s._firstTimeStep || s._forceInitialRelaxation) then s
  else if !s._firstIteration then
    let v := s._matrixV.col 0
    let w := s._matrixW.col 0
    let columnLimitReached : Bool := ((s._Wtil.cols : Int) = s._maxIterationsUsed)
    let overdetermined : Bool := s._Wtil.cols ≤ getLSSystemRows s
    let wtil := multiplyVec s._oldInvJacobian v (getLSSystemRows s) (getLSSystemRows s)
    let wtil := w.sub wtil
    if !columnLimitReached && overdetermined then
      { s with _Wtil := appendFront s._Wtil wtil }
    else
      { s with _Wtil := shiftSetFirst s._Wtil wtil }
  else s

/-- The method `MVQNPostProcessing::pseudoInverse`: after the assertions on the
dimensions, for every row `i` of `Q` the triangular system `R y = Q.row(i)` is
solved and `y` is stored as column `i` of the argument. -/
def pseudoInverse (s : MVQNPostProcessing K) (pseudoInverse : MatrixXd K) :
    Option (MatrixXd K) :=
  let Q := s._qrV.matrixQ
  let R := s._qrV.matrixR
  if pseudoInverse.rows = s._qrV.cols ∧ pseudoInverse.cols = s._qrV.rows ∧
      (s._hasNodesOnInterface = false →
        s._qrV.cols = getLSSystemCols s ∧ s._qrV.rows = 0 ∧ Q.size = 0) then
    some ((List.range Q.rows).foldl
      (fun Z i => Z.setCol i (triangularSolveUpper R (Q.row i))) pseudoInverse)
  else none

/-- The method `MVQNPostProcessing::buildWtil`: after the assertions on the
dimensions, `_Wtil` becomes `W - J_prev * V` and the stale flag is cleared. -/
def buildWtil (s : MVQNPostProcessing K) : Option (MVQNPostProcessing K) :=
  if s._matrixV.rows = s._qrV.rows ∧ getLSSystemCols s = s._qrV.cols then
    let Wtil := multiply s._oldInvJacobian s._matrixV
      (getLSSystemRows s) (getLSSystemRows s) (getLSSystemCols s)
    let Wtil := Wtil.scale (-1)
    let Wtil := Wtil.add s._matrixW
    some { s with _Wtil := Wtil, _resetLS := false }
  else none

/-- The method `MVQNPostProcessing::buildJacobian`; `Zalloc` is the content of
the freshly allocated, not initialised matrix `Z`. -/
def buildJacobian (Zalloc : Nat → Nat → K) (s : MVQNPostProcessing K) :
    Option (MVQNPostProcessing K) :=
  match pseudoInverse s ⟨s._qrV.cols, s._qrV.rows, Zalloc⟩ with
  | none => none
  | some Z =>
    if s._matrixV.rows = s._qrV.rows ∧ getLSSystemCols s = s._qrV.cols then
      match (if s._resetLS then buildWtil s else some s) with
      | none => none
      | some s =>
        let invJacobian := multiply s._Wtil Z
          (getLSSystemRows s) (getLSSystemCols s) (getLSSystemRows s)
        some { s with _invJacobian := invJacobian.add s._oldInvJacobian }
    else none

/-- The method `MVQNPostProcessing::computeNewtonUpdateEfficient`, the implicit
strategy: returns the new state and the update vector `xUpdate`. -/
def computeNewtonUpdateEfficient (Zalloc : Nat → Nat → K) (s : MVQNPostProcessing K) :
    Option (MVQNPostProcessing K × VectorXd K) :=
  match pseudoInverse s ⟨s._qrV.cols, s._qrV.rows, Zalloc⟩ with
  | none => none
  | some Z =>
    if s._matrixV.rows = s._qrV.rows ∧ getLSSystemCols s = s._qrV.cols then
      match (if s._resetLS then buildWtil s else some s) with
      | none => none
      | some s =>
        let negativeResiduals := s._residuals.neg
        let r_til_loc := Z.mulVec negativeResiduals
        let r_til := r_til_loc
        let xUptmp := s._Wtil.mulVec r_til
        let xUpdate := multiplyVec s._oldInvJacobian negativeResiduals
          (getLSSystemRows s) (getLSSystemRows s)
        let xUpdate := xUpdate.add xUptmp
        if s._firstIteration && s._timestepsReused == 0 && !s._forceInitialRelaxation then
          some ({ s with _Wtil := s._Wtil.conservativeResize 0 0, _resetLS := true }, xUpdate)
        else some (s, xUpdate)
    else none

/-- The method `MVQNPostProcessing::computeNewtonUpdate`, the explicit strategy
with a local `W_til`: returns the new state and the update vector. -/
def computeNewtonUpdate (Zalloc : Nat → Nat → K) (s : MVQNPostProcessing K) :
    Option (MVQNPostProcessing K × VectorXd K) :=
  match pseudoInverse s ⟨s._qrV.cols, s._qrV.rows, Zalloc⟩ with
  | none => none
  | some Z =>
    if s._matrixV.rows = s._qrV.rows ∧ getLSSystemCols s = s._qrV.cols then
      let W_til := multiply s._oldInvJacobian s._matrixV
        (getLSSystemRows s) (getLSSystemRows s) (getLSSystemCols s)
      let W_til := W_til.scale (-1)
      let W_til := W_til.add s._matrixW
      let invJacobian := multiply W_til Z
        (getLSSystemRows s) (getLSSystemCols s) (getLSSystemRows s)
      let s := { s with _invJacobian := invJacobian.add s._oldInvJacobian }
      let negativeResiduals := s._residuals.neg
      let xUpdate := multiplyVec s._invJacobian negativeResiduals
        (getLSSystemRows s) (getLSSystemRows s)
      some (s, xUpdate)
    else none

/-- The method `MVQNPostProcessing::computeQNUpdate`: `_Wtil` (when not empty)
and `J_prev` are preconditioned, the implicit strategy computes the update, and
the preconditioning is reverted. -/
def computeQNUpdate (Zalloc : Nat → Nat → K) (s : MVQNPostProcessing K) :
    Option (MVQNPostProcessing K × VectorXd K) :=
  let s := if s._Wtil.size > 0 then
    { s with _Wtil := s._preconditioner.apply s._Wtil false } else s
  let s := { s with _oldInvJacobian := s._preconditioner.apply s._oldInvJacobian false }
  let s := { s with _oldInvJacobian := s._preconditioner.revert s._oldInvJacobian true }
  match computeNewtonUpdateEfficient Zalloc s with
  | none => none
  | some (s, xUpdate) =>
    let s := if s._Wtil.size > 0 then
      { s with _Wtil := s._preconditioner.revert s._Wtil false } else s
    let s := { s with _oldInvJacobian := s._preconditioner.revert s._oldInvJacobian false }
    let s := { s with _oldInvJacobian := s._preconditioner.apply s._oldInvJacobian true }
    some (s, xUpdate)

/-- Modelled from the spec: `BaseQNPostProcessing::removeMatrixColumn`, the
"column-eviction hook" of the shared scaffolding: "evicts a column from V/W". -/
def BaseQNPostProcessing.removeMatrixColumn (columnIndex : Nat) (s : MVQNPostProcessing K) :
    MVQNPostProcessing K :=
  { s with _matrixV := removeColumnFromMatrix s._matrixV columnIndex
           _matrixW := removeColumnFromMatrix s._matrixW columnIndex }

/-- The method `MVQNPostProcessing::removeMatrixColumn`: after the assertions
that `V` and `_Wtil` have more than one column, the column is removed from
`_Wtil` unless the stale flag is set, then from `V` and `W` by the base class. -/
def removeMatrixColumn (columnIndex : Nat) (s : MVQNPostProcessing K) :
    Option (MVQNPostProcessing K) :=
  if 1 < s._matrixV.cols ∧ 1 < s._Wtil.cols then
    let s := if !s._resetLS then
      { s with _Wtil := removeColumnFromMatrix s._Wtil columnIndex } else s
    some (BaseQNPostProcessing.removeMatrixColumn columnIndex s)
  else none

/-- The loop of `BaseQNPostProcessing::applyFilter` over the columns to delete,
each one evicted through the (virtual) method `removeMatrixColumn`. -/
def BaseQNPostProcessing.removeColumns :
    List Nat → MVQNPostProcessing K → Option (MVQNPostProcessing K)
  | [], s => some s
  | i :: rest, s =>
    match precice.removeMatrixColumn i s with
    | none => none
    | some s => BaseQNPostProcessing.removeColumns rest s

/-- Modelled from the spec: `BaseQNPostProcessing::applyFilter`, the external
filtering policy ("detection and removal of near-linearly-dependent history
columns"): the columns `delIndices` chosen by the policy are evicted one after
the other through the column-eviction hook, and `qr` is the decomposition the
scaffolding holds afterwards. -/
def BaseQNPostProcessing.applyFilter (delIndices : List Nat) (qr : QRFactorization K)
    (s : MVQNPostProcessing K) : Option (MVQNPostProcessing K) :=
  match BaseQNPostProcessing.removeColumns delIndices s with
  | none => none
  | some s => some { s with _qrV := qr }

/-- The first part of `specializedIterationsConverged`, up to the filter: the
history state is preconditioned and the decomposition renewed when the
preconditioner requires it. -/
def preconditionHistory (newQR : QRFactorization K) (s : MVQNPostProcessing K) :
    MVQNPostProcessing K :=
  let s := { s with _residuals := s._preconditioner.applyVec s._residuals }
  let s := { s with _matrixV := s._preconditioner.apply s._matrixV false }
  let s := { s with _matrixW := s._preconditioner.apply s._matrixW false }
  let s := { s with _Wtil := s._preconditioner.apply s._Wtil false }
  let s := { s with _oldInvJacobian := s._preconditioner.apply s._oldInvJacobian false }
  let s := { s with _oldInvJacobian := s._preconditioner.revert s._oldInvJacobian true }
  if s._preconditioner.requireNewQR then
    let s := if ¬ (s._filter = Filter.QR2FILTER) then { s with _qrV := newQR } else s
    { s with _preconditioner := s._preconditioner.newQRfulfilled }
  else s

/-- The guard that ends `specializedIterationsConverged`: `_Wtil` is marked stale
when history is reused over timesteps or the initial relaxation is forced. -/
def markStale (s : MVQNPostProcessing K) : MVQNPostProcessing K :=
  if s._timestepsReused > 0 ∨ (s._timestepsReused = 0 ∧ s._forceInitialRelaxation = true) then
    { s with _resetLS := true }
  else s

/-- The last part of `specializedIterationsConverged`, after `buildJacobian`:
the new Jacobian is stored as `J_prev`, the preconditioning reverted and the
final guard `markStale` applied. -/
def revertHistory (s : MVQNPostProcessing K) : MVQNPostProcessing K :=
  let s := { s with _oldInvJacobian := s._invJacobian }
  let s := { s with _matrixW := s._preconditioner.revert s._matrixW false }
  let s := { s with _matrixV := s._preconditioner.revert s._matrixV false }
  let s := { s with _residuals := s._preconditioner.revertVec s._residuals }
  let s := { s with _oldInvJacobian := s._preconditioner.revert s._oldInvJacobian false }
  let s := { s with _oldInvJacobian := s._preconditioner.apply s._oldInvJacobian true }
  let s := { s with _Wtil := s._preconditioner.revert s._Wtil false }
  markStale s

/-- The method `MVQNPostProcessing::specializedIterationsConverged`, made of
its three parts: the preconditioning (`preconditionHistory`), the filter with
the explicit Jacobian (`applyFilter`, `buildJacobian`) and the storing and
reverting (`revertHistory`); `newQR` is the decomposition that
`_qrV.reset(_matrixV, rows)` computes, `delIndices` and `qrFiltered` are the
choices of the filter. -/
def specializedIterationsConverged (Zalloc : Nat → Nat → K) (newQR : QRFactorization K)
    (delIndices : List Nat) (qrFiltered : QRFactorization K) (s : MVQNPostProcessing K) :
    Option (MVQNPostProcessing K) :=
  let s := preconditionHistory newQR s
  match BaseQNPostProcessing.applyFilter delIndices qrFiltered s with
  | none => none
  | some s =>
    match buildJacobian Zalloc s with
    | none => none
    | some s => some (revertHistory s)

end Accelerator

/-! ## The ring of processes -/

section Parser
variable {AttributePair : Type}

/-- A parsed element, `ConfigParser::CTag`.  Tags are shared through pointers
(`std::shared_ptr<CTag>`); a pointer is the position of the tag among the tags
allocated so far.  The type of the attributes, `CTag::AttributePair`, is declared
outside the sources at hand and is a parameter. -/
structure CTag (AttributePair : Type) where
  m_Prefix : String
  m_Name : String
  m_aAttributes : AttributePair
  m_aSubTags : List Nat

/-- The part of a `ConfigParser` that the element callbacks touch: the tags
allocated with `std::make_shared<CTag>()`, in the order of allocation, and the two
vectors of pointers `m_AllTags` and `m_CurrentTags`. -/
structure ConfigParser (AttributePair : Type) where
  tags : List (CTag AttributePair)
  m_AllTags : List Nat
  m_CurrentTags : List Nat

/-- A `ConfigParser` before the first event. -/
def ConfigParser.fresh : ConfigParser AttributePair := ⟨[], [], []⟩

/-- The tag that a pointer refers to. -/
def ConfigParser.deref (c : ConfigParser AttributePair) (p : Nat) : Option (CTag AttributePair) :=
  c.tags[p]?

/-- `pParentTag->m_aSubTags.push_back(pTag)` on the allocated tags. -/
def pushSubTag (tags : List (CTag AttributePair)) (pParentTag pTag : Nat) :
    List (CTag AttributePair) :=
  tags.modify (fun t => { t with m_aSubTags := t.m_aSubTags ++ [pTag] }) pParentTag

/-- `ConfigParser::OnStartElement`. -/
def OnStartElement (localname pre : String) (attributes : AttributePair)
    (c : ConfigParser AttributePair) : ConfigParser AttributePair :=
  let pTag := c.tags.length
  let tags := c.tags ++ [⟨pre, localname, attributes, []⟩]
  let tags :=
    match c.m_CurrentTags.getLast? with
    | some pParentTag => pushSubTag tags pParentTag pTag
    | none => tags
  { tags := tags, m_AllTags := c.m_AllTags ++ [pTag], m_CurrentTags := c.m_CurrentTags ++ [pTag] }

/-- `ConfigParser::OnEndElement`: `m_CurrentTags.pop_back()`, which is undefined on
an empty vector (`none`). -/
def OnEndElement (c : ConfigParser AttributePair) : Option (ConfigParser AttributePair) :=
  if c.m_CurrentTags = [] then none
  else some { c with m_CurrentTags := c.m_CurrentTags.dropLast }

/-- An event that the SAX handlers deliver to the parser. -/
inductive Event (AttributePair : Type) where
  | startElement (localname pre : String) (attributes : AttributePair)
  | endElement

/-- Delivering one event. -/
def deliver (c : ConfigParser AttributePair) : Event AttributePair → Option (ConfigParser AttributePair)
  | .startElement localname pre attributes => some (OnStartElement localname pre attributes c)
  | .endElement => OnEndElement c

/-- Delivering a sequence of events, first to last. -/
def deliverAll (c : ConfigParser AttributePair) :
    List (Event AttributePair) → Option (ConfigParser AttributePair)
  | [] => some c
  | e :: es =>
    match deliver c e with
    | none => none
    | some c => deliverAll c es

/-- An element of a document with its children in document order. -/
inductive Element (AttributePair : Type) where
  | mk (m_Prefix m_Name : String) (m_aAttributes : AttributePair)
      (m_aSubTags : List (Element AttributePair))

mutual
/-- The well-nested event sequence of an element: its start event, the sequences
of its children in document order, its end event. -/
def Element.events : Element AttributePair → List (Event AttributePair)
  | .mk p n a subs => Event.startElement n p a :: (eventsList subs ++ [Event.endElement])
/-- The event sequences of sibling elements, one after the other. -/
def eventsList : List (Element AttributePair) → List (Event AttributePair)
  | [] => []
  | e :: es => e.events ++ eventsList es
end

mutual
/-- The number of elements in the subtree of an element. -/
def Element.size : Element AttributePair → Nat
  | .mk _ _ _ subs => 1 + sizeList subs
/-- The number of elements in the subtrees of sibling elements. -/
def sizeList : List (Element AttributePair) → Nat
  | [] => 0
  | e :: es => e.size + sizeList es
end

/-- The positions in document order of sibling elements of which the first has
position `base`: every sibling comes after the whole subtree of the one before. -/
def childIds (base : Nat) : List (Element AttributePair) → List Nat
  | [] => []
  | e :: es => base :: childIds (base + e.size) es

mutual
/-- The tags expected for the subtree of an element whose position in document
order is `base`, in document order: each tag carries the data of its element and
points to the positions of the direct children of the element. -/
def Element.layout (base : Nat) : Element AttributePair → List (CTag AttributePair)
  | .mk p n a subs => ⟨p, n, a, childIds (base + 1) subs⟩ :: layoutList (base + 1) subs
/-- The tags expected for the subtrees of sibling elements. -/
def layoutList (base : Nat) : List (Element AttributePair) → List (CTag AttributePair)
  | [] => []
  | e :: es => e.layout base ++ layoutList (base + e.size) es
end

/-- The start event that created a tag. -/
def CTag.startEvent (t : CTag AttributePair) : Event AttributePair :=
  Event.startElement t.m_Name t.m_Prefix t.m_aAttributes

/-- Whether an event is a start event. -/
def Event.isStart : Event AttributePair → Bool
  | .startElement _ _ _ => true
  | .endElement => false

/-- The nesting depth after a sequence of events: the number of elements that are
started and not yet ended. -/
def nestingDepth (es : List (Event AttributePair)) : Int :=
  ((es.filter Event.isStart).length : Int) - ((es.filter (fun e => !e.isStart)).length : Int)

/-- How often a pointer occurs in the `m_aSubTags` of the tags. -/
def occurrences (tags : List (CTag AttributePair)) (p : Nat) : Nat :=
  (tags.map (fun t => t.m_aSubTags.count p)).sum

/-- The element that a pointer refers to, read by following the `m_aSubTags`
pointers for at most `fuel` levels. -/
def readElement (tags : List (CTag AttributePair)) : Nat → Nat → Option (Element AttributePair)
  | 0, _ => none
  | fuel + 1, p =>
    match tags[p]? with
    | none => none
    | some t =>
      match t.m_aSubTags.mapM (readElement tags fuel) with
      | none => none
      | some subs => some (Element.mk t.m_Prefix t.m_Name t.m_aAttributes subs)

/-- The allocated tags after the pointers `ids` are pushed to the `m_aSubTags` of
the innermost open element, if there is one. -/
def attachSubTags (c : ConfigParser AttributePair) (ids : List Nat) : List (CTag AttributePair) :=
  match c.m_CurrentTags.getLast? with
  | some pParentTag =>
    c.tags.modify (fun t => { t with m_aSubTags := t.m_aSubTags ++ ids }) pParentTag
  | none => c.tags

/-- The innermost open element is an allocated tag. -/
def TopAllocated (c : ConfigParser AttributePair) : Prop :=
  ∀ p, c.m_CurrentTags.getLast? = some p → p < c.tags.length


/-- The full name of a parsed element: the prefix and a colon before the name when
the prefix is not empty. -/
def fullNameOf (m_Prefix m_Name : String) : String :=
  (if m_Prefix.length ≠ 0 then m_Prefix ++ ":" else "") ++ m_Name

/-- The full name of an element. -/
def Element.fullName : Element AttributePair → String
  | .mk p n _ _ => fullNameOf p n

/-- `XMLTag::Occurrence`.  The enumeration is declared outside the sources at hand;
`connectTags` names two of its values, and `other` stands for every further
value. -/
inductive Occurrence where
  | OCCUR_ONCE
  | OCCUR_NOT_OR_ONCE
  | other (kind : Nat)
deriving DecidableEq

/-- A tag definition, `XMLTag`, with the members that `connectTags` reads.  The
definitions are shared through pointers; `address` identifies the object. -/
inductive XMLTag where
  | mk (address : Nat) (_fullName _namespace : String) (_occurrence : Occurrence)
      (_subtags : List XMLTag)

/-- The object behind a pointer to a definition. -/
def XMLTag.address : XMLTag → Nat
  | .mk a _ _ _ _ => a

/-- The member `_fullName`. -/
def XMLTag._fullName : XMLTag → String
  | .mk _ n _ _ _ => n

/-- The member `_namespace`. -/
def XMLTag._namespace : XMLTag → String
  | .mk _ _ ns _ _ => ns

/-- The member `_occurrence`. -/
def XMLTag._occurrence : XMLTag → Occurrence
  | .mk _ _ _ o _ => o

/-- The member `_subtags`. -/
def XMLTag._subtags : XMLTag → List XMLTag
  | .mk _ _ _ _ subs => subs

/-- The members of one definition that `connectTags` writes. -/
structure XMLTagState where
  _configured : Bool
  _configuredNamespaces : String → Option Bool

/-- The mutable state behind the definitions: the written members of the definition
at every address, and in `rest` whatever else the member functions and the
listeners read and write (attribute values, the configuration being built). -/
structure TagStore (ε : Type) where
  tag : Nat → XMLTagState
  rest : ε

/-- The member functions of `XMLTag` and the listener callbacks that `connectTags`
calls.  Their code is outside the sources at hand, so they are parameters; each
one may change the state or raise an error.  The constant `context` argument of
the callbacks is part of the functions. -/
structure XMLTagMethods (AttributePair ε : Type) where
  resetAttributes : XMLTag → TagStore ε → Except String (TagStore ε)
  readAttributes : XMLTag → AttributePair → TagStore ε → Except String (TagStore ε)
  xmlTagCallback : XMLTag → TagStore ε → Except String (TagStore ε)
  areAllSubtagsConfigured : XMLTag → TagStore ε → Except String (TagStore ε)
  xmlEndTagCallback : XMLTag → TagStore ε → Except String (TagStore ε)

/-- The inner loop of `connectTags`: the first definition in order whose
`_fullName` is the full name of the element; the loop breaks there. -/
def findDefTag (fullName : String) : List XMLTag → Option XMLTag
  | [] => none
  | pDefSubTag :: rest =>
    if pDefSubTag._fullName = fullName then some pDefSubTag else findDefTag fullName rest

/-- Whether the occurrence of a definition is `OCCUR_ONCE` or `OCCUR_NOT_OR_ONCE`. -/
def XMLTag.occursAtMostOnce (d : XMLTag) : Bool :=
  d._occurrence = Occurrence.OCCUR_ONCE || d._occurrence = Occurrence.OCCUR_NOT_OR_ONCE

/-- The bookkeeping of `usedTags` for a matched definition: the error when a
definition that may occur at most once was used before, otherwise the new
`usedTags`. -/
def markUsed (pDefSubTag : XMLTag) (usedTags : List String) : Except String (List String) :=
  if pDefSubTag.occursAtMostOnce then
    if pDefSubTag._fullName ∈ usedTags then
      Except.error ("Tag <" ++ pDefSubTag._fullName ++ "> is already used")
    else Except.ok (usedTags ++ [pDefSubTag._fullName])
  else Except.ok usedTags

/-- `pDefSubTag->_configuredNamespaces[pDefSubTag->_namespace] = true`. -/
def setConfiguredNamespace {ε : Type} (d : XMLTag) (w : TagStore ε) : TagStore ε :=
  { w with tag := fun a =>
      if a = d.address then
        { w.tag a with _configuredNamespaces := fun ns =>
            if ns = d._namespace then some true else (w.tag a)._configuredNamespaces ns }
      else w.tag a }

/-- `pDefSubTag->_configured = true`. -/
def setConfigured {ε : Type} (d : XMLTag) (w : TagStore ε) : TagStore ε :=
  { w with tag := fun a => if a = d.address then { w.tag a with _configured := true } else w.tag a }

mutual
/-- The body of the loop of `connectTags` for one element: returns the new
`usedTags` and the new state, or the error raised. -/
def connectTag {ε : Type} (m : XMLTagMethods AttributePair ε) (DefTags : List XMLTag)
    (usedTags : List String) :
    Element AttributePair → TagStore ε → Except String (List String × TagStore ε)
  | .mk p n a subs, w =>
    match findDefTag (fullNameOf p n) DefTags with
    | none => Except.error ("Tag <" ++ fullNameOf p n ++ "> is unknown")
    | some pDefSubTag =>
      match m.resetAttributes pDefSubTag w with
      | Except.error err => Except.error err
      | Except.ok w =>
        match markUsed pDefSubTag usedTags with
        | Except.error err => Except.error err
        | Except.ok usedTags =>
          match m.readAttributes pDefSubTag a (setConfiguredNamespace pDefSubTag w) with
          | Except.error err => Except.error err
          | Except.ok w =>
            match m.xmlTagCallback pDefSubTag w with
            | Except.error err => Except.error err
            | Except.ok w =>
              match connectSubTags m pDefSubTag._subtags [] subs (setConfigured pDefSubTag w) with
              | Except.error err => Except.error err
              | Except.ok w =>
                match m.areAllSubtagsConfigured pDefSubTag w with
                | Except.error err => Except.error err
                | Except.ok w =>
                  match m.xmlEndTagCallback pDefSubTag w with
                  | Except.error err => Except.error err
                  | Except.ok w => Except.ok (usedTags, w)
/-- The loop of `connectTags` over the elements, from a given `usedTags`. -/
def connectSubTags {ε : Type} (m : XMLTagMethods AttributePair ε) (DefTags : List XMLTag)
    (usedTags : List String) :
    List (Element AttributePair) → TagStore ε → Except String (TagStore ε)
  | [], w => Except.ok w
  | subtag :: rest, w =>
    match connectTag m DefTags usedTags subtag w with
    | Except.error err => Except.error err
    | Except.ok (usedTags, w) => connectSubTags m DefTags usedTags rest w
end

/-- An element matches a definition: the definition is the first one in order
whose `_fullName` is the full name of the element. -/
def Matches (DefTags : List XMLTag) (e : Element AttributePair) (d : XMLTag) : Prop :=
  ∃ before after, DefTags = before ++ d :: after ∧ d._fullName = e.fullName ∧
    ∀ d' ∈ before, d'._fullName ≠ e.fullName

/-- A document that matches the example definitions. -/
def exampleDocument : Element Unit :=
  .mk "" "precice-configuration" ()
    [.mk "" "participant" () [], .mk "m2n" "sockets" () [], .mk "m2n" "sockets" () []]

/-- A document with an element that has no definition. -/
def exampleUnknown : Element Unit :=
  .mk "" "precice-configuration" () [.mk "" "participant" () [.mk "" "mesh" () []]]

end Parser

/-! ## Specification vocabulary and a worked example -/

section Vocabulary

variable {K : Type} [Field K]

/-- The pair `(Q, R)` held by `qr` is a decomposition of the `n × m` matrix `V`:
`Q` is `n × m` with orthonormal columns, `R` is `m × m`, upper-triangular with
a non-zero diagonal (hence invertible), and `V = Q * R`. -/
def IsDecomposition (qr : QRFactorization K) (V : MatrixXd K) (n m : Nat) : Prop :=
  qr.rows = n ∧ qr.cols = m ∧
  qr.matrixQ.rows = n ∧ qr.matrixQ.cols = m ∧ qr.matrixR.rows = m ∧ qr.matrixR.cols = m ∧
  V.rows = n ∧ V.cols = m ∧
  (qr.matrixQ.toMatrix n m).transpose * qr.matrixQ.toMatrix n m = 1 ∧
  (∀ i < m, ∀ j < i, qr.matrixR.coeff i j = 0) ∧
  (∀ i < m, qr.matrixR.coeff i i ≠ 0) ∧
  V.toMatrix n m = qr.matrixQ.toMatrix n m * qr.matrixR.toMatrix m m

/-- `_Wtil` is tracked: it has the shape of `W` and holds `W - J_prev * V`. -/
def WtilTracked (s : MVQNPostProcessing K) (n m : Nat) : Prop :=
  s._Wtil.rows = n ∧ s._Wtil.cols = m ∧
  s._Wtil.toMatrix n m
    = s._matrixW.toMatrix n m - s._oldInvJacobian.toMatrix n n * s._matrixV.toMatrix n m

/-- The history state has `n` local unknowns and `m` history columns. -/
def HasShape (s : MVQNPostProcessing K) (n m : Nat) : Prop :=
  s._residuals.size = n ∧ s._matrixV.rows = n ∧ s._matrixV.cols = m ∧
  s._matrixW.rows = n ∧ s._matrixW.cols = m ∧
  s._oldInvJacobian.rows = n ∧ s._oldInvJacobian.cols = n

/-- The state in which the two strategies read `_Wtil`: after `buildWtil` when
the stale flag is set, unchanged otherwise. -/
def readWtil (s : MVQNPostProcessing K) : MVQNPostProcessing K :=
  if s._resetLS then
    { s with
      _Wtil := ((multiply s._oldInvJacobian s._matrixV (getLSSystemRows s) (getLSSystemRows s)
        (getLSSystemCols s)).scale (-1)).add s._matrixW
      _resetLS := false }
  else s

/-- The matrix `_Wtil` read by the strategies, as a Mathlib matrix: the stored
one when the stale flag is clear, `W - J_prev * V` when it is set. -/
def wtilMatrix (s : MVQNPostProcessing K) (n m : Nat) : Matrix (Fin n) (Fin m) K :=
  if s._resetLS then
    s._matrixW.toMatrix n m - s._oldInvJacobian.toMatrix n n * s._matrixV.toMatrix n m
  else s._Wtil.toMatrix n m

/-- The identity preconditioner: all weights are one and no new decomposition
is required. -/
def IsIdentity (P : Preconditioner K) : Prop :=
  P.weights = (fun _ => 1) ∧ P.requireNewQR = false

/-- The end of `specializedIterationsConverged`, after `buildJacobian`, for an
identity preconditioner: the new Jacobian is stored as `J_prev` and the stale
flag is set when history is reused or the initial relaxation is forced. -/
def storeJacobian (s : MVQNPostProcessing K) : MVQNPostProcessing K :=
  if s._timestepsReused > 0 ∨ (s._timestepsReused = 0 ∧ s._forceInitialRelaxation = true) then
    { s with _oldInvJacobian := s._invJacobian, _resetLS := true }
  else { s with _oldInvJacobian := s._invJacobian }

/-- The rule by which both the scaffolding and the accelerator extend a history
matrix: a column is appended when the column limit is not reached and the
system is not overdetermined, the oldest column is replaced otherwise. -/
def appends (cols : Nat) (maxIterationsUsed : Int) (rows : Nat) : Bool :=
  !decide ((cols : Int) = maxIterationsUsed) && decide (cols ≤ rows)

/-- The history matrix extended by a new first column. -/
def extend (A : MatrixXd K) (v : VectorXd K) (append : Bool) : MatrixXd K :=
  if append then appendFront A v else shiftSetFirst A v

/-- The configuration of the accelerator: the constructor arguments that no
method changes. -/
def configuration (s : MVQNPostProcessing K) : Bool × Int × Int :=
  (s._forceInitialRelaxation, s._maxIterationsUsed, s._timestepsReused)

/-- The state in which `computeQNUpdate` calls the implicit strategy: `_Wtil`
(when not empty) and `J_prev` are preconditioned. -/
def preconditionJacobian (s : MVQNPostProcessing K) : MVQNPostProcessing K :=
  let s := if s._Wtil.size > 0 then
    { s with _Wtil := s._preconditioner.apply s._Wtil false } else s
  let s := { s with _oldInvJacobian := s._preconditioner.apply s._oldInvJacobian false }
  { s with _oldInvJacobian := s._preconditioner.revert s._oldInvJacobian true }

/-- The state in which `computeQNUpdate` returns: the preconditioning of
`_Wtil` (when not empty) and `J_prev` is reverted. -/
def revertJacobian (s : MVQNPostProcessing K) : MVQNPostProcessing K :=
  let s := if s._Wtil.size > 0 then
    { s with _Wtil := s._preconditioner.revert s._Wtil false } else s
  let s := { s with _oldInvJacobian := s._preconditioner.revert s._oldInvJacobian false }
  { s with _oldInvJacobian := s._preconditioner.apply s._oldInvJacobian true }

/-- `_Wtil` has `n` rows, the columns of `V`, and holds `W - J * V` for the
given matrix `J`. -/
def TrackedFor (J : MatrixXd K) (s : MVQNPostProcessing K) (n : Nat) : Prop :=
  s._Wtil.rows = n ∧ s._Wtil.cols = s._matrixV.cols ∧
  s._Wtil.toMatrix n s._matrixV.cols
    = s._matrixW.toMatrix n s._matrixV.cols - J.toMatrix n n * s._matrixV.toMatrix n s._matrixV.cols

end Vocabulary

/-- The states reached from the state after `initialize` by calls of
`updateDifferenceMatrices` and `removeMatrixColumn`, in any order and with any
arguments; between the calls the coupling scheme and the base class may change
every member but `_Wtil` and the configured maximum. -/
inductive HistoryReachable {K : Type} [Field K] (base : MVQNPostProcessing K) :
    MVQNPostProcessing K → Prop
  | init : HistoryReachable base (initialise base)
  | update (residuals deltaR deltaXTilde : VectorXd K) (qr : QRFactorization K)
      {s : MVQNPostProcessing K} :
      HistoryReachable base s →
      HistoryReachable base (updateDifferenceMatrices residuals deltaR deltaXTilde qr s)
  | remove (columnIndex : Nat) {s s' : MVQNPostProcessing K} :
      HistoryReachable base s → removeMatrixColumn columnIndex s = some s' →
      HistoryReachable base s'
  | environment {s s' : MVQNPostProcessing K} :
      HistoryReachable base s → s'._Wtil = s._Wtil →
      s'._maxIterationsUsed = s._maxIterationsUsed → HistoryReachable base s'

/-- A `2 × 2` matrix with the given coefficients (zero elsewhere). -/
def mat22 (a b c d : ℚ) : MatrixXd ℚ :=
  ⟨2, 2, fun i j =>
    match i, j with
    | 0, 0 => a
    | 0, 1 => b
    | 1, 0 => c
    | 1, 1 => d
    | _, _ => 0⟩

/-- A vector of size 2 with the given coefficients (zero elsewhere). -/
def vec2 (a b : ℚ) : VectorXd ℚ :=
  ⟨2, fun i =>
    match i with
    | 0 => a
    | 1 => b
    | _ => 0⟩

/-- A worked state with two unknowns and two history columns:
`V = Q * R` with `Q` a permutation matrix, `_Wtil = W - J_prev * V`. -/
def exampleState : MVQNPostProcessing ℚ where
  _forceInitialRelaxation := false
  _maxIterationsUsed := 2
  _timestepsReused := 0
  _filter := Filter.other 0
  _preconditioner := ⟨fun _ => 1, false⟩
  _firstIteration := false
  _firstTimeStep := false
  _hasNodesOnInterface := true
  _resetLS := false
  _residuals := vec2 1 1
  _matrixV := mat22 0 3 2 1
  _matrixW := mat22 1 2 3 4
  _qrV := ⟨mat22 0 1 1 0, mat22 2 1 0 3, 2, 2⟩
  _Wtil := mat22 1 (-1) 1 3
  _invJacobian := MatrixXd.Zero 2 2
  _oldInvJacobian := mat22 1 0 0 1

/-- The worked example in the first iteration of a timestep. -/
def exampleFirst : MVQNPostProcessing ℚ := { exampleState with _firstIteration := true }

/-- The worked example with a preconditioner that is not the identity: the
weight of unknown `i` is `i + 2`. -/
def exampleScaled : MVQNPostProcessing ℚ :=
  { exampleState with _preconditioner := ⟨fun i => (i : ℚ) + 2, false⟩ }

/-- The worked example of the history bound: from the state after `initialize`,
two updates fill `_Wtil` up to the maximum of two columns. -/
def exampleFull : MVQNPostProcessing ℚ :=
  updateDifferenceMatrices (vec2 1 1) (vec2 0 1) (vec2 1 0) exampleState._qrV
    (updateDifferenceMatrices (vec2 1 1) (vec2 1 0) (vec2 0 1) exampleState._qrV
      (initialise exampleState))

/-! ## Properties -/

theorem setCol_coeff {K : Type} (A : MatrixXd K) (j : Nat) (v : VectorXd K) (i k : Nat) :
    (A.setCol j v).coeff i k = if k = j then v.coeff i else A.coeff i k := rfl

theorem extend_coeff {K : Type} (A : MatrixXd K) (v : VectorXd K) (a : Bool) (i j : Nat) :
    (extend A v a).coeff i j = if j = 0 then v.coeff i else A.coeff i (j - 1) := by
  cases a <;> rfl

theorem extend_cols {K : Type} (A : MatrixXd K) (v : VectorXd K) (a : Bool) :
    (extend A v a).cols = if a then A.cols + 1 else A.cols := by
  cases a <;> rfl

theorem extend_rows {K : Type} (A : MatrixXd K) (v : VectorXd K) (a : Bool) :
    (extend A v a).rows = if a then v.size else A.rows := by
  cases a <;> rfl

theorem same_of_toMatrix {K : Type} (A B : MatrixXd K) (n m : Nat)
    (hAr : A.rows = n) (hAc : A.cols = m) (hBr : B.rows = n) (hBc : B.cols = m)
    (h : A.toMatrix n m = B.toMatrix n m) : MatrixXd.Same A B := by
  refine ⟨hAr.trans hBr.symm, hAc.trans hBc.symm, ?_⟩
  intro i hi j hj
  rw [hAr] at hi
  rw [hAc] at hj
  exact congrFun (congrFun h ⟨i, hi⟩) ⟨j, hj⟩

section Properties

variable {K : Type} [Field K]

/-! ### Dense products as Mathlib matrices -/


theorem toMatrix_multiply (A B : MatrixXd K) (p q r : Nat) :
    (multiply A B p q r).toMatrix p r = A.toMatrix p q * B.toMatrix q r := by
  ext i j
  simp only [MatrixXd.toMatrix, multiply, Matrix.mul_apply]
  exact Finset.sum_range _

theorem toVec_multiplyVec (A : MatrixXd K) (x : VectorXd K) (p q : Nat) :
    (multiplyVec A x p q).toVec p = Matrix.mulVec (A.toMatrix p q) (x.toVec q) := by
  ext i
  simp only [VectorXd.toVec, multiplyVec, Matrix.mulVec, Matrix.dotProduct, MatrixXd.toMatrix]
  exact Finset.sum_range _

theorem toVec_mulVec (A : MatrixXd K) (x : VectorXd K) (p q : Nat) (hq : A.cols = q) :
    (A.mulVec x).toVec p = Matrix.mulVec (A.toMatrix p q) (x.toVec q) := by
  subst hq
  ext i
  simp only [VectorXd.toVec, MatrixXd.mulVec, Matrix.mulVec, Matrix.dotProduct, MatrixXd.toMatrix]
  exact Finset.sum_range _

theorem toMatrix_add (A B : MatrixXd K) (p q : Nat) :
    (A.add B).toMatrix p q = A.toMatrix p q + B.toMatrix p q := rfl

theorem toMatrix_scale_neg_one (A : MatrixXd K) (p q : Nat) :
    (A.scale (-1)).toMatrix p q = - A.toMatrix p q := by
  ext i j
  simp [MatrixXd.toMatrix, MatrixXd.scale]

theorem toVec_add (x y : VectorXd K) (n : Nat) :
    (x.add y).toVec n = x.toVec n + y.toVec n := rfl

theorem toVec_neg (x : VectorXd K) (n : Nat) : x.neg.toVec n = - x.toVec n := rfl

/-- The matrix that `buildWtil` and `computeNewtonUpdate` compute is `W - J_prev * V`. -/
theorem toMatrix_rebuilt (J V W : MatrixXd K) (n m : Nat) :
    (((multiply J V n n m).scale (-1)).add W).toMatrix n m
      = W.toMatrix n m - J.toMatrix n n * V.toMatrix n m := by
  rw [toMatrix_add, toMatrix_scale_neg_one, toMatrix_multiply]
  abel

theorem buildWtil_eq (s : MVQNPostProcessing K)
    (h : s._matrixV.rows = s._qrV.rows ∧ getLSSystemCols s = s._qrV.cols) :
    buildWtil s = some { s with
      _Wtil := ((multiply s._oldInvJacobian s._matrixV (getLSSystemRows s) (getLSSystemRows s)
        (getLSSystemCols s)).scale (-1)).add s._matrixW
      _resetLS := false } := by
  simp only [buildWtil]
  rw [if_pos h]

/-! ### The pseudo-inverse -/


theorem backSubstitution_frozen (R : MatrixXd K) (b : VectorXd K) (k : Nat) (j : Nat)
    (hj : R.rows - (k + 1) ≠ j) :
    backSubstitution R b (k + 1) j = backSubstitution R b k j := by
  simp only [backSubstitution]
  exact Function.update_noteq (Ne.symm hj) _ _

theorem backSubstitution_row (R : MatrixXd K) (b : VectorXd K)
    (hdiag : ∀ i < R.rows, R.coeff i i ≠ 0) :
    ∀ k ≤ R.rows, ∀ i, R.rows - k ≤ i → i < R.rows →
      ∑ j in Ico i R.rows, R.coeff i j * backSubstitution R b k j = b.coeff i := by
  intro k
  induction k with
  | zero => intro _ i h1 h2; omega
  | succ k ih =>
    intro hk i h1 h2
    by_cases hi : i = R.rows - (k + 1)
    · have hne : R.coeff i i ≠ 0 := hdiag i h2
      rw [Finset.sum_eq_sum_Ico_succ_bot h2]
      have htail : ∑ j in Ico (i + 1) R.rows, R.coeff i j * backSubstitution R b (k + 1) j
          = ∑ j in Ico (i + 1) R.rows, R.coeff i j * backSubstitution R b k j := by
        apply Finset.sum_congr rfl
        intro j hj
        rw [backSubstitution_frozen]
        have := (Finset.mem_Ico.mp hj).1
        omega
      rw [htail]
      have hhead : backSubstitution R b (k + 1) i
          = (b.coeff i - ∑ j in Ico (i + 1) R.rows, R.coeff i j * backSubstitution R b k j)
              / R.coeff i i := by
        simp only [backSubstitution]
        rw [← hi]
        simp
      rw [hhead]
      field_simp
    · have hsame : ∑ j in Ico i R.rows, R.coeff i j * backSubstitution R b (k + 1) j
          = ∑ j in Ico i R.rows, R.coeff i j * backSubstitution R b k j := by
        apply Finset.sum_congr rfl
        intro j hj
        rw [backSubstitution_frozen]
        have := (Finset.mem_Ico.mp hj).1
        omega
      rw [hsame]
      exact ih (by omega) i (by omega) h2

/-- The triangular solve solves the system. -/
theorem triangularSolveUpper_spec (R : MatrixXd K) (b : VectorXd K)
    (hupper : ∀ i < R.rows, ∀ j < i, R.coeff i j = 0)
    (hdiag : ∀ i < R.rows, R.coeff i i ≠ 0) (i : Nat) (hi : i < R.rows) :
    ∑ j in range R.rows, R.coeff i j * (triangularSolveUpper R b).coeff j = b.coeff i := by
  have h := backSubstitution_row R b hdiag R.rows le_rfl i (by omega) hi
  rw [Finset.range_eq_Ico, ← Finset.sum_Ico_consecutive _ (Nat.zero_le i) hi.le]
  have hz : ∑ j in Ico 0 i, R.coeff i j * (triangularSolveUpper R b).coeff j = 0 := by
    apply Finset.sum_eq_zero
    intro j hj
    rw [hupper i hi j (Finset.mem_Ico.mp hj).2, zero_mul]
  rw [hz, zero_add]
  exact h

theorem foldl_setCol (f : Nat → VectorXd K) (n : Nat) (Z : MatrixXd K) :
    ((List.range n).foldl (fun Z i => Z.setCol i (f i)) Z).rows = Z.rows ∧
    ((List.range n).foldl (fun Z i => Z.setCol i (f i)) Z).cols = Z.cols ∧
    ∀ k i, ((List.range n).foldl (fun Z i => Z.setCol i (f i)) Z).coeff k i =
      if i < n then (f i).coeff k else Z.coeff k i := by
  induction n with
  | zero => simp
  | succ n ih =>
    rw [List.range_succ, List.foldl_append]
    obtain ⟨h1, h2, h3⟩ := ih
    refine ⟨?_, ?_, ?_⟩
    · exact h1
    · exact h2
    · intro k i
      rw [List.foldl_cons, List.foldl_nil, setCol_coeff]
      by_cases hi : i = n
      · subst hi; simp
      · rw [if_neg hi, h3]
        by_cases hlt : i < n
        · rw [if_pos hlt, if_pos (by omega)]
        · rw [if_neg hlt, if_neg (by omega)]

/-- An upper-triangular matrix with non-zero diagonal has a non-zero determinant. -/
theorem det_upper_ne_zero (R : MatrixXd K) (m : Nat)
    (hupper : ∀ i < m, ∀ j < i, R.coeff i j = 0)
    (hdiag : ∀ i < m, R.coeff i i ≠ 0) : IsUnit (R.toMatrix m m).det := by
  have hbt : (R.toMatrix m m).BlockTriangular id := by
    intro i j hij
    exact hupper i i.isLt j hij
  rw [Matrix.det_of_upperTriangular hbt, isUnit_iff_ne_zero]
  exact Finset.prod_ne_zero_iff.mpr (fun i _ => hdiag i i.isLt)

/-- Dimension facts and the coefficients of the result of `pseudoInverse`. -/
theorem pseudoInverse_eq (s : MVQNPostProcessing K) (Z : MatrixXd K)
    (hr : Z.rows = s._qrV.cols) (hc : Z.cols = s._qrV.rows)
    (hnodes : s._hasNodesOnInterface = false →
      s._qrV.cols = getLSSystemCols s ∧ s._qrV.rows = 0 ∧ s._qrV.matrixQ.size = 0) :
    ∃ Z', pseudoInverse s Z = some Z' ∧ Z'.rows = Z.rows ∧ Z'.cols = Z.cols ∧
      ∀ k i, Z'.coeff k i =
        if i < s._qrV.matrixQ.rows
        then (triangularSolveUpper s._qrV.matrixR (s._qrV.matrixQ.row i)).coeff k
        else Z.coeff k i := by
  refine ⟨(List.range s._qrV.matrixQ.rows).foldl
      (fun Z i => Z.setCol i (triangularSolveUpper s._qrV.matrixR (s._qrV.matrixQ.row i))) Z,
    ?_, ?_⟩
  · simp only [pseudoInverse]
    rw [if_pos ⟨hr, hc, hnodes⟩]
  · exact foldl_setCol _ _ _

/-- The solved systems, in matrix form: `R * Z = Qᵀ`. -/
theorem mul_pseudoInverse (Q R Z : MatrixXd K) (n m : Nat)
    (hR : R.rows = m)
    (hupper : ∀ i < m, ∀ j < i, R.coeff i j = 0)
    (hdiag : ∀ i < m, R.coeff i i ≠ 0)
    (hZ : ∀ k, ∀ i < n, Z.coeff k i = (triangularSolveUpper R (Q.row i)).coeff k) :
    R.toMatrix m m * Z.toMatrix m n = (Q.toMatrix n m).transpose := by
  subst hR
  ext i c
  rw [Matrix.mul_apply, Matrix.transpose_apply]
  simp only [MatrixXd.toMatrix]
  have h := triangularSolveUpper_spec R (Q.row c) hupper hdiag i i.isLt
  rw [Finset.sum_range] at h
  rw [← show (Q.row c).coeff i = Q.coeff c i from rfl, ← h]
  apply Finset.sum_congr rfl
  intro j _
  rw [hZ j c c.isLt]

/-- From `R * Z = Qᵀ`, `V = Q * R` and `Qᵀ * Q = 1`: `Z` is a left inverse of `V`
and equals `(Vᵀ V)⁻¹ Vᵀ`. -/
theorem leftInverse_of_qr {n m : Nat} (Q V : Matrix (Fin n) (Fin m) K)
    (R : Matrix (Fin m) (Fin m) K) (Z : Matrix (Fin m) (Fin n) K)
    (hdet : IsUnit R.det) (horth : Q.transpose * Q = 1) (hV : V = Q * R)
    (hRZ : R * Z = Q.transpose) :
    Z * V = 1 ∧ Z = (V.transpose * V)⁻¹ * V.transpose := by
  have h1 : R * (Z * V) = R := by
    rw [← Matrix.mul_assoc, hRZ, hV, ← Matrix.mul_assoc, horth, Matrix.one_mul]
  have hZV : Z * V = 1 := by
    have := congrArg (fun M => R⁻¹ * M) h1
    simp only at this
    rwa [Matrix.nonsing_inv_mul_cancel_left _ _ hdet, Matrix.nonsing_inv_mul _ hdet] at this
  refine ⟨hZV, ?_⟩
  have hVV : V.transpose * V = R.transpose * R := by
    rw [hV, Matrix.transpose_mul, Matrix.mul_assoc, ← Matrix.mul_assoc Q.transpose, horth,
      Matrix.one_mul]
  have hdet2 : IsUnit (V.transpose * V).det := by
    rw [hVV, Matrix.det_mul, Matrix.det_transpose]
    exact hdet.mul hdet
  have h2 : (V.transpose * V) * Z = V.transpose := by
    rw [hVV, Matrix.mul_assoc, hRZ, hV, Matrix.transpose_mul]
  calc Z = (V.transpose * V)⁻¹ * ((V.transpose * V) * Z) :=
        (Matrix.nonsing_inv_mul_cancel_left _ _ hdet2).symm
    _ = (V.transpose * V)⁻¹ * V.transpose := by rw [h2]

/-- C5 (pseudo-inverse). For every `V = Q * R` with `Q` (`n × m`) having
orthonormal columns and `R` (`m × m`) invertible upper-triangular,
`pseudoInverse` returns, for an `m × n` argument, the `m × n` matrix `Z` whose
column `i` is, for every row `i` of `Q`, the back-substitution solution `y` of
`R * y = (row i of Q)ᵀ`; hence `R * Z = Qᵀ`, `Z = (Vᵀ V)⁻¹ Vᵀ` and `Z * V = 1`. -/
theorem pseudoInverse_spec (s : MVQNPostProcessing K) (V Z0 : MatrixXd K) (n m : Nat)
    (hqr : IsDecomposition s._qrV V n m)
    (hr : Z0.rows = m) (hc : Z0.cols = n)
    (hnodes : s._hasNodesOnInterface = false → m = getLSSystemCols s ∧ n = 0) :
    ∃ Z, pseudoInverse s Z0 = some Z ∧ Z.rows = m ∧ Z.cols = n ∧
      (∀ i < n, Z.col i = triangularSolveUpper s._qrV.matrixR (s._qrV.matrixQ.row i)) ∧
      (∀ i < n, ∀ k < m,
        ∑ j in range m, s._qrV.matrixR.coeff k j * (Z.col i).coeff j
          = (s._qrV.matrixQ.row i).coeff k) ∧
      s._qrV.matrixR.toMatrix m m * Z.toMatrix m n = (s._qrV.matrixQ.toMatrix n m).transpose ∧
      Z.toMatrix m n
        = ((V.toMatrix n m).transpose * V.toMatrix n m)⁻¹ * (V.toMatrix n m).transpose ∧
      Z.toMatrix m n * V.toMatrix n m = 1 := by
  obtain ⟨hqrows, hqcols, hQr, -, hRr, hRc, -, -, horth, hupper, hdiag, hV⟩ := hqr
  obtain ⟨Z, hZ, hZr, hZc, hcoeff⟩ := pseudoInverse_eq s Z0 (hr.trans hqcols.symm)
    (hc.trans hqrows.symm) (by
      intro h
      obtain ⟨h1, h2⟩ := hnodes h
      refine ⟨by omega, by omega, ?_⟩
      simp [MatrixXd.size, hQr, h2])
  have hsol : ∀ k, ∀ i < n,
      Z.coeff k i = (triangularSolveUpper s._qrV.matrixR (s._qrV.matrixQ.row i)).coeff k := by
    intro k i hi
    rw [hcoeff, if_pos (by omega)]
  have hRZ := mul_pseudoInverse s._qrV.matrixQ s._qrV.matrixR Z n m hRr hupper hdiag hsol
  have hdet := det_upper_ne_zero s._qrV.matrixR m hupper hdiag
  obtain ⟨hleft, hpinv⟩ := leftInverse_of_qr _ _ _ _ hdet horth hV hRZ
  refine ⟨Z, hZ, hZr.trans hr, hZc.trans hc, ?_, ?_, hRZ, hpinv, hleft⟩
  · intro i hi
    have hfun : (fun k => Z.coeff k i)
        = (triangularSolveUpper s._qrV.matrixR (s._qrV.matrixQ.row i)).coeff :=
      funext (fun k => hsol k i hi)
    simp only [MatrixXd.col, triangularSolveUpper] at hfun ⊢
    rw [hfun, hZr, hr, hRc]
  · intro i hi k hk
    have h := triangularSolveUpper_spec s._qrV.matrixR (s._qrV.matrixQ.row i)
      (by rw [hRr]; exact hupper) (by rw [hRr]; exact hdiag) k (by omega)
    rw [hRr] at h
    rw [← h]
    apply Finset.sum_congr rfl
    intro j _
    simp only [MatrixXd.col]
    rw [hsol j i hi]

/-! ### The two update strategies -/

theorem rebuild_eq (s : MVQNPostProcessing K)
    (h : s._matrixV.rows = s._qrV.rows ∧ getLSSystemCols s = s._qrV.cols) :
    (if s._resetLS = true then buildWtil s else some s) = some (readWtil s) := by
  unfold readWtil
  split_ifs
  · exact buildWtil_eq s h
  · rfl

theorem buildJacobian_eq (Zalloc : Nat → Nat → K) (s : MVQNPostProcessing K) (Z : MatrixXd K)
    (hZ : pseudoInverse s ⟨s._qrV.cols, s._qrV.rows, Zalloc⟩ = some Z)
    (h : s._matrixV.rows = s._qrV.rows ∧ getLSSystemCols s = s._qrV.cols) :
    buildJacobian Zalloc s = some { readWtil s with
        _invJacobian := (multiply (readWtil s)._Wtil Z (getLSSystemRows (readWtil s))
          (getLSSystemCols (readWtil s)) (getLSSystemRows (readWtil s))).add
            (readWtil s)._oldInvJacobian } := by
  simp only [buildJacobian, hZ]
  rw [if_pos h, rebuild_eq s h]

theorem computeNewtonUpdateEfficient_eq (Zalloc : Nat → Nat → K) (s : MVQNPostProcessing K)
    (Z : MatrixXd K)
    (hZ : pseudoInverse s ⟨s._qrV.cols, s._qrV.rows, Zalloc⟩ = some Z)
    (h : s._matrixV.rows = s._qrV.rows ∧ getLSSystemCols s = s._qrV.cols) :
    computeNewtonUpdateEfficient Zalloc s = some
      (if (readWtil s)._firstIteration && (readWtil s)._timestepsReused == 0
            && !(readWtil s)._forceInitialRelaxation then
          { readWtil s with
            _Wtil := (readWtil s)._Wtil.conservativeResize 0 0, _resetLS := true }
        else readWtil s,
       (multiplyVec (readWtil s)._oldInvJacobian (readWtil s)._residuals.neg
          (getLSSystemRows (readWtil s)) (getLSSystemRows (readWtil s))).add
        ((readWtil s)._Wtil.mulVec (Z.mulVec (readWtil s)._residuals.neg))) := by
  simp only [computeNewtonUpdateEfficient, hZ]
  rw [if_pos h, rebuild_eq s h]
  simp only
  split_ifs <;> rfl

theorem computeNewtonUpdate_eq (Zalloc : Nat → Nat → K) (s : MVQNPostProcessing K)
    (Z : MatrixXd K)
    (hZ : pseudoInverse s ⟨s._qrV.cols, s._qrV.rows, Zalloc⟩ = some Z)
    (h : s._matrixV.rows = s._qrV.rows ∧ getLSSystemCols s = s._qrV.cols) :
    ∃ s', computeNewtonUpdate Zalloc s = some (s',
      multiplyVec
        ((multiply
          (((multiply s._oldInvJacobian s._matrixV (getLSSystemRows s) (getLSSystemRows s)
            (getLSSystemCols s)).scale (-1)).add s._matrixW)
          Z (getLSSystemRows s) (getLSSystemCols s) (getLSSystemRows s)).add s._oldInvJacobian)
        s._residuals.neg (getLSSystemRows s) (getLSSystemRows s)) := by
  simp only [computeNewtonUpdate, hZ]
  rw [if_pos h]
  exact ⟨_, rfl⟩

/-- Frame of `readWtil`: only `_Wtil` and the stale flag may change. -/
theorem readWtil_frame (s : MVQNPostProcessing K) :
    (readWtil s)._matrixV = s._matrixV ∧ (readWtil s)._matrixW = s._matrixW ∧
    (readWtil s)._oldInvJacobian = s._oldInvJacobian ∧ (readWtil s)._residuals = s._residuals ∧
    (readWtil s)._qrV = s._qrV ∧ (readWtil s)._resetLS = false := by
  unfold readWtil
  split_ifs with h
  · exact ⟨rfl, rfl, rfl, rfl, rfl, rfl⟩
  · exact ⟨rfl, rfl, rfl, rfl, rfl, by simpa using h⟩

/-- The matrix read as `_Wtil` is `W - J_prev * V` when it was tracked or is rebuilt. -/
theorem readWtil_toMatrix (s : MVQNPostProcessing K) (n m : Nat)
    (hn : s._residuals.size = n) (hm : s._matrixV.cols = m)
    (hW : s._resetLS = true ∨ WtilTracked s n m) :
    (readWtil s)._Wtil.toMatrix n m
      = s._matrixW.toMatrix n m - s._oldInvJacobian.toMatrix n n * s._matrixV.toMatrix n m := by
  unfold readWtil
  split_ifs with h
  · simp only [getLSSystemRows, getLSSystemCols, hn, hm]
    exact toMatrix_rebuilt _ _ _ n m
  · rcases hW with hW | hW
    · exact absurd hW h
    · exact hW.2.2

theorem pseudoInverse_dims (s : MVQNPostProcessing K) (Z0 Z : MatrixXd K)
    (hZ : pseudoInverse s Z0 = some Z) :
    Z.rows = Z0.rows ∧ Z.cols = Z0.cols ∧
    (Z0.rows = s._qrV.cols ∧ Z0.cols = s._qrV.rows) := by
  simp only [pseudoInverse] at hZ
  split_ifs at hZ with h
  have hZ' := Option.some.inj hZ
  subst hZ'
  exact ⟨(foldl_setCol _ _ _).1, (foldl_setCol _ _ _).2.1, h.1, h.2.1⟩

theorem readWtil_wtilMatrix (s : MVQNPostProcessing K) (n m : Nat)
    (hn : s._residuals.size = n) (hm : s._matrixV.cols = m) :
    (readWtil s)._Wtil.toMatrix n m = wtilMatrix s n m := by
  unfold readWtil wtilMatrix
  split_ifs with h
  · simp only [getLSSystemRows, getLSSystemCols, hn, hm]
    exact toMatrix_rebuilt _ _ _ n m
  · rfl

theorem readWtil_cols (s : MVQNPostProcessing K) (m : Nat)
    (hm : s._matrixV.cols = m) (hc : s._resetLS = false → s._Wtil.cols = m) :
    (readWtil s)._Wtil.cols = m := by
  unfold readWtil
  split_ifs with h
  · simp only [MatrixXd.add, MatrixXd.scale, multiply, getLSSystemCols, hm]
  · exact hc (by simpa using h)

/-! ### Convergence of a timestep -/

theorem apply_identity (P : Preconditioner K) (h : P.weights = fun _ => 1) (M : MatrixXd K)
    (t : Bool) : P.apply M t = M := by
  cases M
  simp [Preconditioner.apply, h]

theorem revert_identity (P : Preconditioner K) (h : P.weights = fun _ => 1) (M : MatrixXd K)
    (t : Bool) : P.revert M t = M := by
  cases M
  simp [Preconditioner.revert, h]

theorem applyVec_identity (P : Preconditioner K) (h : P.weights = fun _ => 1) (v : VectorXd K) :
    P.applyVec v = v := by
  cases v
  simp [Preconditioner.applyVec, h]

theorem revertVec_identity (P : Preconditioner K) (h : P.weights = fun _ => 1) (v : VectorXd K) :
    P.revertVec v = v := by
  cases v
  simp [Preconditioner.revertVec, h]

/-- Whenever `buildJacobian` returns, its assertions held and the result is the
state read by `readWtil` with the new Jacobian. -/
theorem buildJacobian_some (Zalloc : Nat → Nat → K) (s s' : MVQNPostProcessing K)
    (h : buildJacobian Zalloc s = some s') :
    ∃ Z, pseudoInverse s ⟨s._qrV.cols, s._qrV.rows, Zalloc⟩ = some Z ∧
      (s._matrixV.rows = s._qrV.rows ∧ getLSSystemCols s = s._qrV.cols) ∧
      s' = { readWtil s with
        _invJacobian := (multiply (readWtil s)._Wtil Z (getLSSystemRows (readWtil s))
          (getLSSystemCols (readWtil s)) (getLSSystemRows (readWtil s))).add
            (readWtil s)._oldInvJacobian } := by
  cases hZ : pseudoInverse s ⟨s._qrV.cols, s._qrV.rows, Zalloc⟩ with
  | none => simp [buildJacobian, hZ] at h
  | some Z =>
    by_cases ha : s._matrixV.rows = s._qrV.rows ∧ getLSSystemCols s = s._qrV.cols
    · refine ⟨Z, rfl, ha, ?_⟩
      rw [buildJacobian_eq Zalloc s Z hZ ha] at h
      exact (Option.some.inj h).symm
    · simp only [buildJacobian, hZ] at h
      rw [if_neg ha] at h
      exact absurd h (by simp)

theorem readWtil_preconditioner (s : MVQNPostProcessing K) :
    (readWtil s)._preconditioner = s._preconditioner := by
  unfold readWtil
  split_ifs <;> rfl

theorem buildJacobian_preconditioner (Zalloc : Nat → Nat → K) (s s' : MVQNPostProcessing K)
    (h : buildJacobian Zalloc s = some s') : s'._preconditioner = s._preconditioner := by
  obtain ⟨Z, -, -, rfl⟩ := buildJacobian_some Zalloc s s' h
  exact readWtil_preconditioner s

theorem preconditionHistory_identity (newQR : QRFactorization K) (s : MVQNPostProcessing K)
    (hid : IsIdentity s._preconditioner) : preconditionHistory newQR s = s := by
  obtain ⟨hw, hq⟩ := hid
  unfold preconditionHistory
  simp only [apply_identity _ hw, revert_identity _ hw, applyVec_identity _ hw, hq]
  rfl

theorem revertHistory_identity (s : MVQNPostProcessing K)
    (hw : s._preconditioner.weights = fun _ => 1) : revertHistory s = storeJacobian s := by
  unfold revertHistory markStale storeJacobian
  simp only [apply_identity _ hw, revert_identity _ hw, revertVec_identity _ hw]

theorem specializedIterationsConverged_identity (Zalloc : Nat → Nat → K)
    (newQR : QRFactorization K) (s : MVQNPostProcessing K)
    (hid : IsIdentity s._preconditioner) :
    specializedIterationsConverged Zalloc newQR [] s._qrV s
      = (buildJacobian Zalloc s).map storeJacobian := by
  unfold specializedIterationsConverged
  simp only [preconditionHistory_identity newQR s hid, BaseQNPostProcessing.applyFilter,
    BaseQNPostProcessing.removeColumns]
  cases hb : buildJacobian Zalloc s with
  | none => rfl
  | some s1 =>
    have hp := buildJacobian_preconditioner Zalloc s s1 hb
    simp only [Option.map_some']
    rw [revertHistory_identity s1 (hp ▸ hid.1)]

theorem storeJacobian_jacobians (s : MVQNPostProcessing K) :
    (storeJacobian s)._oldInvJacobian = s._invJacobian ∧
    (storeJacobian s)._invJacobian = s._invJacobian := by
  unfold storeJacobian
  split_ifs <;> exact ⟨rfl, rfl⟩

/-! ### Maintenance of the history -/

theorem base_updateDifferenceMatrices_eq (residuals deltaR deltaXTilde : VectorXd K)
    (qr : QRFactorization K) (s : MVQNPostProcessing K) (hfirst : s._firstIteration = false) :
    BaseQNPostProcessing.updateDifferenceMatrices residuals deltaR deltaXTilde qr s =
      { s with
        _residuals := residuals
        _matrixV := extend s._matrixV deltaR
          (appends s._matrixV.cols s._maxIterationsUsed residuals.size)
        _matrixW := extend s._matrixW deltaXTilde
          (appends s._matrixV.cols s._maxIterationsUsed residuals.size)
        _qrV := qr } := by
  simp only [BaseQNPostProcessing.updateDifferenceMatrices, hfirst, getLSSystemCols,
    getLSSystemRows, appends, extend]
  simp only [Bool.false_and, Bool.false_eq_true, if_false, Bool.not_false, if_true]
  split_ifs <;> rfl

theorem updateDifferenceMatrices_eq (residuals deltaR deltaXTilde : VectorXd K)
    (qr : QRFactorization K) (s : MVQNPostProcessing K) (hfirst : s._firstIteration = false) :
    updateDifferenceMatrices residuals deltaR deltaXTilde qr s =
      { s with
        _residuals := residuals
        _matrixV := extend s._matrixV deltaR
          (appends s._matrixV.cols s._maxIterationsUsed residuals.size)
        _matrixW := extend s._matrixW deltaXTilde
          (appends s._matrixV.cols s._maxIterationsUsed residuals.size)
        _qrV := qr
        _Wtil := extend s._Wtil
          (((extend s._matrixW deltaXTilde
              (appends s._matrixV.cols s._maxIterationsUsed residuals.size)).col 0).sub
            (multiplyVec s._oldInvJacobian
              ((extend s._matrixV deltaR
                (appends s._matrixV.cols s._maxIterationsUsed residuals.size)).col 0)
              residuals.size residuals.size))
          (appends s._Wtil.cols s._maxIterationsUsed residuals.size) } := by
  simp only [updateDifferenceMatrices, base_updateDifferenceMatrices_eq _ _ _ _ _ hfirst, hfirst,
    getLSSystemRows]
  simp only [Bool.false_and, Bool.false_eq_true, if_false, Bool.not_false, if_true]
  simp only [appends, extend]
  split_ifs <;> rfl

theorem updateDifferenceMatrices_first (residuals deltaR deltaXTilde : VectorXd K)
    (qr : QRFactorization K) (s : MVQNPostProcessing K) (hfirst : s._firstIteration = true) :
    updateDifferenceMatrices residuals deltaR deltaXTilde qr s
      = { s with _residuals := residuals } := by
  cases s
  simp only at hfirst
  subst hfirst
  simp [updateDifferenceMatrices, BaseQNPostProcessing.updateDifferenceMatrices]

/-- Extending `V`, `W` and `_Wtil` by the new deltas keeps `_Wtil = W - J_prev * V`. -/
theorem extend_tracked (V W Wt J : MatrixXd K) (dR dX : VectorXd K) (n m m' : Nat) (a : Bool)
    (hm' : m' ≤ m + 1)
    (hWt : Wt.toMatrix n m = W.toMatrix n m - J.toMatrix n n * V.toMatrix n m) :
    (extend Wt (((extend W dX a).col 0).sub
        (multiplyVec J ((extend V dR a).col 0) n n)) a).toMatrix n m'
      = (extend W dX a).toMatrix n m' - J.toMatrix n n * (extend V dR a).toMatrix n m' := by
  ext i j
  simp only [MatrixXd.toMatrix, Matrix.sub_apply, Matrix.mul_apply, extend_coeff,
    VectorXd.sub, multiplyVec, MatrixXd.col]
  by_cases hj : (j : Nat) = 0
  · simp only [hj, if_true]
    rw [Finset.sum_range]
  · simp only [hj, if_false]
    have hlt : (j : Nat) - 1 < m := by have := j.isLt; omega
    have h := congrFun (congrFun hWt i) ⟨(j : Nat) - 1, hlt⟩
    simpa [MatrixXd.toMatrix, Matrix.sub_apply, Matrix.mul_apply] using h

/-! ### The claims on the linear algebra -/

/-- C1 (secant condition). In exact arithmetic and in a single process, for
every `V` (`n × m`) with a decomposition `V = Q * R`, `Q` with orthonormal
columns and `R` invertible upper-triangular, every `W` (`n × m`) and every
`J_prev` (`n × n`): when `_Wtil` is tracked as `W - J_prev * V` or is rebuilt
because the stale flag is set, `buildJacobian` returns and the new matrix
`J = _invJacobian` satisfies `J * V = W`, that is `J * V.col(i) = W.col(i)`
for every retained column `i`. -/
theorem buildJacobian_secant (Zalloc : Nat → Nat → K) (s : MVQNPostProcessing K) (n m : Nat)
    (hshape : HasShape s n m)
    (hqr : IsDecomposition s._qrV s._matrixV n m)
    (hnodes : s._hasNodesOnInterface = false → n = 0)
    (hW : s._resetLS = true ∨ WtilTracked s n m) :
    ∃ s', buildJacobian Zalloc s = some s' ∧
      s'._matrixV = s._matrixV ∧ s'._matrixW = s._matrixW ∧
      s'._invJacobian.rows = n ∧ s'._invJacobian.cols = n ∧
      s'._invJacobian.toMatrix n n * s'._matrixV.toMatrix n m = s'._matrixW.toMatrix n m ∧
      ∀ i < m, (s'._invJacobian.mulVec (s'._matrixV.col i)).toVec n
        = (s'._matrixW.col i).toVec n := by
  obtain ⟨hres, hVr, hVc, -, -, -, -⟩ := hshape
  have hqrows : s._qrV.rows = n := hqr.1
  have hqcols : s._qrV.cols = m := hqr.2.1
  obtain ⟨Z, hZ, -, -, -, -, -, -, hleft⟩ :=
    pseudoInverse_spec s s._matrixV ⟨s._qrV.cols, s._qrV.rows, Zalloc⟩ n m hqr hqcols hqrows
      (fun h => ⟨by rw [getLSSystemCols, hVc], hnodes h⟩)
  have hassert : s._matrixV.rows = s._qrV.rows ∧ getLSSystemCols s = s._qrV.cols :=
    ⟨by rw [hVr, hqrows], by rw [getLSSystemCols, hVc, hqcols]⟩
  obtain ⟨fV, fW, fJ, fres, -, -⟩ := readWtil_frame s
  have hWt := readWtil_toMatrix s n m hres hVc hW
  have hJ : ((multiply (readWtil s)._Wtil Z (getLSSystemRows (readWtil s))
        (getLSSystemCols (readWtil s)) (getLSSystemRows (readWtil s))).add
          (readWtil s)._oldInvJacobian).toMatrix n n * s._matrixV.toMatrix n m
      = s._matrixW.toMatrix n m := by
    simp only [getLSSystemRows, getLSSystemCols, fV, fJ, fres, hres, hVc]
    rw [toMatrix_add, toMatrix_multiply, hWt, Matrix.add_mul, Matrix.mul_assoc, hleft,
      Matrix.mul_one]
    abel
  refine ⟨_, buildJacobian_eq Zalloc s Z hZ hassert, fV, fW, ?_, ?_, ?_, ?_⟩
  · simp only [MatrixXd.add, multiply, getLSSystemRows, fres, hres]
  · simp only [MatrixXd.add, multiply, getLSSystemRows, fres, hres]
  · simp only [fV, fW]
    exact hJ
  · intro i hi
    simp only [fV, fW]
    rw [toVec_mulVec _ _ n n (by simp only [MatrixXd.add, multiply, getLSSystemRows, fres, hres])]
    have hcol := congrFun (congrArg Matrix.transpose hJ) ⟨i, hi⟩
    ext k
    have := congrFun hcol k
    simpa [Matrix.mul_apply, Matrix.mulVec, Matrix.dotProduct, MatrixXd.toMatrix, VectorXd.toVec,
      MatrixXd.col] using this

/-- C2 (strategy equivalence). In exact arithmetic and in a single process,
for every `V`, `W`, `J_prev`, residual and decomposition `(Q, R)` of `V`, with
`_Wtil = W - J_prev * V` and the stale flag clear: the implicit strategy
`computeNewtonUpdateEfficient` and the explicit strategy `computeNewtonUpdate`
both return, with the same update vector, which is also `J * (-residual)` for
the matrix `J` that `buildJacobian` builds. -/
theorem strategies_agree (Zalloc : Nat → Nat → K) (s : MVQNPostProcessing K) (n m : Nat)
    (hshape : HasShape s n m)
    (hqr : IsDecomposition s._qrV s._matrixV n m)
    (hnodes : s._hasNodesOnInterface = false → n = 0)
    (hclear : s._resetLS = false) (hW : WtilTracked s n m) :
    ∃ s₁ x₁ s₂ x₂ s₃,
      computeNewtonUpdateEfficient Zalloc s = some (s₁, x₁) ∧
      computeNewtonUpdate Zalloc s = some (s₂, x₂) ∧
      buildJacobian Zalloc s = some s₃ ∧
      x₁.size = n ∧ x₂.size = n ∧
      x₁.toVec n = x₂.toVec n ∧
      x₁.toVec n = (multiplyVec s₃._invJacobian s₃._residuals.neg n n).toVec n := by
  obtain ⟨hres, hVr, hVc, -, -, -, -⟩ := hshape
  have hqrows : s._qrV.rows = n := hqr.1
  have hqcols : s._qrV.cols = m := hqr.2.1
  obtain ⟨Z, hZ, -, hZc, -, -, -, -, -⟩ :=
    pseudoInverse_spec s s._matrixV ⟨s._qrV.cols, s._qrV.rows, Zalloc⟩ n m hqr hqcols hqrows
      (fun h => ⟨by rw [getLSSystemCols, hVc], hnodes h⟩)
  have hassert : s._matrixV.rows = s._qrV.rows ∧ getLSSystemCols s = s._qrV.cols :=
    ⟨by rw [hVr, hqrows], by rw [getLSSystemCols, hVc, hqcols]⟩
  have hread : readWtil s = s := by
    unfold readWtil
    rw [hclear]
    rfl
  obtain ⟨s₂, h₂⟩ := computeNewtonUpdate_eq Zalloc s Z hZ hassert
  have h₁ := computeNewtonUpdateEfficient_eq Zalloc s Z hZ hassert
  have h₃ := buildJacobian_eq Zalloc s Z hZ hassert
  rw [hread] at h₁ h₃
  have hx₁ : ((multiplyVec s._oldInvJacobian s._residuals.neg (getLSSystemRows s)
        (getLSSystemRows s)).add (s._Wtil.mulVec (Z.mulVec s._residuals.neg))).toVec n
      = Matrix.mulVec (s._oldInvJacobian.toMatrix n n) (- s._residuals.toVec n)
        + Matrix.mulVec (s._Wtil.toMatrix n m)
            (Matrix.mulVec (Z.toMatrix m n) (- s._residuals.toVec n)) := by
    simp only [getLSSystemRows, hres]
    rw [toVec_add, toVec_multiplyVec, toVec_mulVec _ _ n m hW.2.1, toVec_mulVec _ _ m n hZc,
      toVec_neg]
  refine ⟨_, _, s₂, _, _, h₁, h₂, h₃, ?_, ?_, ?_, ?_⟩
  · simp only [VectorXd.add, multiplyVec, getLSSystemRows, hres]
  · simp only [multiplyVec, getLSSystemRows, hres]
  · rw [hx₁]
    simp only [getLSSystemRows, getLSSystemCols, hres, hVc]
    rw [toVec_multiplyVec, toMatrix_add, toMatrix_multiply, toMatrix_rebuilt, toVec_neg,
      Matrix.add_mulVec, ← Matrix.mulVec_mulVec, hW.2.2, add_comm]
  · rw [hx₁]
    simp only [getLSSystemRows, getLSSystemCols, hres, hVc]
    rw [toVec_multiplyVec, toMatrix_add, toMatrix_multiply, toVec_neg,
      Matrix.add_mulVec, ← Matrix.mulVec_mulVec, add_comm]

/-- C3 (implicit update formula). In exact arithmetic and in a single
process, for every `J_prev`, residual, history state and the matrix `Z`
produced by `pseudoInverse`: `computeNewtonUpdateEfficient` returns
`xUpdate = J_prev * (-residual) + Wtil' * (Z * (-residual))`, where `Wtil'` is
the stored `_Wtil` when the stale flag is clear and `W - J_prev * V` when it is
set; with `J_prev = 0` the update is `Wtil' * (Z * (-residual))`. -/
theorem computeNewtonUpdateEfficient_formula (Zalloc : Nat → Nat → K)
    (s : MVQNPostProcessing K) (Z : MatrixXd K) (n m : Nat)
    (hshape : HasShape s n m)
    (hqr : s._qrV.rows = n ∧ s._qrV.cols = m)
    (hZ : pseudoInverse s ⟨s._qrV.cols, s._qrV.rows, Zalloc⟩ = some Z)
    (hcols : s._resetLS = false → s._Wtil.cols = m) :
    ∃ s' xUpdate, computeNewtonUpdateEfficient Zalloc s = some (s', xUpdate) ∧
      xUpdate.size = n ∧
      xUpdate.toVec n
        = Matrix.mulVec (s._oldInvJacobian.toMatrix n n) (- s._residuals.toVec n)
          + Matrix.mulVec (wtilMatrix s n m)
              (Matrix.mulVec (Z.toMatrix m n) (- s._residuals.toVec n)) ∧
      (s._oldInvJacobian.toMatrix n n = 0 →
        xUpdate.toVec n
          = Matrix.mulVec (wtilMatrix s n m)
              (Matrix.mulVec (Z.toMatrix m n) (- s._residuals.toVec n))) := by
  obtain ⟨hres, hVr, hVc, -, -, -, -⟩ := hshape
  have hassert : s._matrixV.rows = s._qrV.rows ∧ getLSSystemCols s = s._qrV.cols :=
    ⟨by rw [hVr, hqr.1], by rw [getLSSystemCols, hVc, hqr.2]⟩
  obtain ⟨-, hZc, -⟩ := pseudoInverse_dims s _ Z hZ
  simp only at hZc
  obtain ⟨-, -, fJ, fres, -, -⟩ := readWtil_frame s
  have hx : ((multiplyVec (readWtil s)._oldInvJacobian (readWtil s)._residuals.neg
          (getLSSystemRows (readWtil s)) (getLSSystemRows (readWtil s))).add
        ((readWtil s)._Wtil.mulVec (Z.mulVec (readWtil s)._residuals.neg))).toVec n
      = Matrix.mulVec (s._oldInvJacobian.toMatrix n n) (- s._residuals.toVec n)
          + Matrix.mulVec (wtilMatrix s n m)
              (Matrix.mulVec (Z.toMatrix m n) (- s._residuals.toVec n)) := by
    simp only [getLSSystemRows, fJ, fres, hres]
    rw [toVec_add, toVec_multiplyVec, toVec_mulVec _ _ n m (readWtil_cols s m hVc hcols),
      toVec_mulVec _ _ m n (by rw [hZc, hqr.1]), toVec_neg, readWtil_wtilMatrix s n m hres hVc]
  refine ⟨_, _, computeNewtonUpdateEfficient_eq Zalloc s Z hZ hassert, ?_, hx, ?_⟩
  · simp only [VectorXd.add, multiplyVec, getLSSystemRows, fres, hres]
  · intro h0
    rw [hx, h0, Matrix.zero_mulVec, zero_add]

/-- C4 (explicit Jacobian and carry-over). In exact arithmetic and in a
single process, `buildJacobian` sets `_invJacobian` to
`_oldInvJacobian + Wtil' * Z` (`Wtil'` rebuilt as `W - J_prev * V` when the
stale flag is set) and leaves `_oldInvJacobian` unchanged; with an identity
preconditioner and no column filtered, `specializedIterationsConverged` then
assigns this matrix to `_oldInvJacobian`, so that `J_prev` after convergence is
`J_prev` before convergence plus `Wtil' * Z` and equals `_invJacobian`. -/
theorem buildJacobian_carryOver (Zalloc : Nat → Nat → K) (newQR : QRFactorization K)
    (s : MVQNPostProcessing K) (Z : MatrixXd K) (n m : Nat)
    (hshape : HasShape s n m)
    (hqr : s._qrV.rows = n ∧ s._qrV.cols = m)
    (hZ : pseudoInverse s ⟨s._qrV.cols, s._qrV.rows, Zalloc⟩ = some Z) :
    ∃ s', buildJacobian Zalloc s = some s' ∧
      s'._invJacobian.toMatrix n n
        = s._oldInvJacobian.toMatrix n n + wtilMatrix s n m * Z.toMatrix m n ∧
      s'._oldInvJacobian = s._oldInvJacobian ∧
      (IsIdentity s._preconditioner →
        ∃ s'', specializedIterationsConverged Zalloc newQR [] s._qrV s = some s'' ∧
          s''._oldInvJacobian = s'._invJacobian ∧
          s''._invJacobian = s'._invJacobian ∧
          s''._oldInvJacobian.toMatrix n n
            = s._oldInvJacobian.toMatrix n n + wtilMatrix s n m * Z.toMatrix m n ∧
          s''._oldInvJacobian = s''._invJacobian) := by
  obtain ⟨hres, hVr, hVc, -, -, -, -⟩ := hshape
  have hassert : s._matrixV.rows = s._qrV.rows ∧ getLSSystemCols s = s._qrV.cols :=
    ⟨by rw [hVr, hqr.1], by rw [getLSSystemCols, hVc, hqr.2]⟩
  obtain ⟨fV, -, fJ, fres, -, -⟩ := readWtil_frame s
  have hb := buildJacobian_eq Zalloc s Z hZ hassert
  have hJ : ((multiply (readWtil s)._Wtil Z (getLSSystemRows (readWtil s))
        (getLSSystemCols (readWtil s)) (getLSSystemRows (readWtil s))).add
          (readWtil s)._oldInvJacobian).toMatrix n n
      = s._oldInvJacobian.toMatrix n n + wtilMatrix s n m * Z.toMatrix m n := by
    simp only [getLSSystemRows, getLSSystemCols, fV, fJ, fres, hres, hVc]
    rw [toMatrix_add, toMatrix_multiply, readWtil_wtilMatrix s n m hres hVc, add_comm]
  refine ⟨_, hb, hJ, fJ, ?_⟩
  intro hid
  rw [specializedIterationsConverged_identity Zalloc newQR s hid, hb]
  refine ⟨_, rfl, (storeJacobian_jacobians _).1, (storeJacobian_jacobians _).2, ?_, ?_⟩
  · rw [(storeJacobian_jacobians _).1]
    exact hJ
  · rw [(storeJacobian_jacobians _).1, (storeJacobian_jacobians _).2]

/-! ### Stale marking and discard at convergence -/

theorem specializedIterationsConverged_eq (Zalloc : Nat → Nat → K) (newQR : QRFactorization K)
    (delIndices : List Nat) (qrFiltered : QRFactorization K) (s : MVQNPostProcessing K) :
    specializedIterationsConverged Zalloc newQR delIndices qrFiltered s
      = (BaseQNPostProcessing.applyFilter delIndices qrFiltered
          (preconditionHistory newQR s)).bind
          (fun s => (buildJacobian Zalloc s).map revertHistory) := by
  unfold specializedIterationsConverged
  simp only
  cases BaseQNPostProcessing.applyFilter delIndices qrFiltered (preconditionHistory newQR s) with
  | none => rfl
  | some s1 =>
    simp only [Option.some_bind]
    cases buildJacobian Zalloc s1 <;> rfl

theorem markStale_frame (s : MVQNPostProcessing K) :
    (markStale s)._Wtil = s._Wtil ∧ (markStale s)._oldInvJacobian = s._oldInvJacobian ∧
    (markStale s)._invJacobian = s._invJacobian ∧ (markStale s)._matrixV = s._matrixV ∧
    (markStale s)._matrixW = s._matrixW := by
  unfold markStale
  split_ifs <;> exact ⟨rfl, rfl, rfl, rfl, rfl⟩

theorem markStale_flag (s : MVQNPostProcessing K) (h : s._resetLS = false)
    (hreuse : 0 ≤ s._timestepsReused) :
    (markStale s)._resetLS = true
      ↔ (0 < s._timestepsReused ∨ s._forceInitialRelaxation = true) := by
  unfold markStale
  split_ifs with hc
  · simp only [true_iff]
    rcases hc with hc | hc
    · exact Or.inl hc
    · exact Or.inr hc.2
  · simp only [h, Bool.false_eq_true, false_iff]
    intro hcon
    apply hc
    rcases hcon with hcon | hcon
    · exact Or.inl hcon
    · rcases lt_or_eq_of_le hreuse with h1 | h1
      · exact Or.inl h1
      · exact Or.inr ⟨h1.symm, hcon⟩

theorem preconditionHistory_frame (newQR : QRFactorization K) (s : MVQNPostProcessing K) :
    configuration (preconditionHistory newQR s) = configuration s ∧
    (preconditionHistory newQR s)._resetLS = s._resetLS ∧
    (preconditionHistory newQR s)._hasNodesOnInterface = s._hasNodesOnInterface ∧
    (preconditionHistory newQR s)._matrixV.rows = s._matrixV.rows ∧
    (preconditionHistory newQR s)._matrixV.cols = s._matrixV.cols := by
  unfold preconditionHistory
  simp only
  split_ifs <;> exact ⟨rfl, rfl, rfl, rfl, rfl⟩

theorem removeMatrixColumn_configuration (k : Nat) (s s' : MVQNPostProcessing K)
    (h : removeMatrixColumn k s = some s') :
    configuration s' = configuration s ∧ s'._hasNodesOnInterface = s._hasNodesOnInterface := by
  unfold removeMatrixColumn at h
  by_cases h1 : 1 < s._matrixV.cols ∧ 1 < s._Wtil.cols
  · rw [if_pos h1] at h
    have h' := Option.some.inj h
    subst h'
    simp only [BaseQNPostProcessing.removeMatrixColumn]
    split_ifs <;> exact ⟨rfl, rfl⟩
  · rw [if_neg h1] at h
    exact absurd h (by simp)

theorem removeColumns_configuration (delIndices : List Nat) :
    ∀ (s s' : MVQNPostProcessing K), BaseQNPostProcessing.removeColumns delIndices s = some s' →
      configuration s' = configuration s ∧ s'._hasNodesOnInterface = s._hasNodesOnInterface := by
  induction delIndices with
  | nil =>
    intro s s' h
    simp only [BaseQNPostProcessing.removeColumns] at h
    rw [← Option.some.inj h]
    exact ⟨rfl, rfl⟩
  | cons i rest ih =>
    intro s s' h
    simp only [BaseQNPostProcessing.removeColumns] at h
    cases h1 : removeMatrixColumn i s with
    | none => rw [h1] at h; exact absurd h (by simp)
    | some s1 =>
      rw [h1] at h
      obtain ⟨ha, hb⟩ := removeMatrixColumn_configuration i s s1 h1
      obtain ⟨hc, hd⟩ := ih s1 s' h
      exact ⟨hc.trans ha, hd.trans hb⟩

theorem applyFilter_configuration (delIndices : List Nat) (qr : QRFactorization K)
    (s s' : MVQNPostProcessing K) (h : BaseQNPostProcessing.applyFilter delIndices qr s = some s') :
    configuration s' = configuration s := by
  unfold BaseQNPostProcessing.applyFilter at h
  cases h1 : BaseQNPostProcessing.removeColumns delIndices s with
  | none => rw [h1] at h; exact absurd h (by simp)
  | some s1 =>
    rw [h1] at h
    rw [← Option.some.inj h]
    exact (removeColumns_configuration delIndices s s1 h1).1

theorem readWtil_configuration (s : MVQNPostProcessing K) :
    configuration (readWtil s) = configuration s := by
  unfold readWtil
  split_ifs <;> rfl

theorem buildJacobian_flag (Zalloc : Nat → Nat → K) (s s' : MVQNPostProcessing K)
    (h : buildJacobian Zalloc s = some s') :
    configuration s' = configuration s ∧ s'._resetLS = false := by
  obtain ⟨Z, -, -, rfl⟩ := buildJacobian_some Zalloc s s' h
  exact ⟨readWtil_configuration s, (readWtil_frame s).2.2.2.2.2⟩

theorem revertHistory_flag (s : MVQNPostProcessing K) (h : s._resetLS = false)
    (hreuse : 0 ≤ s._timestepsReused) :
    (revertHistory s)._resetLS = true
      ↔ (0 < s._timestepsReused ∨ s._forceInitialRelaxation = true) := by
  unfold revertHistory
  exact markStale_flag _ h hreuse

/-- Without filtered columns, `specializedIterationsConverged` returns as soon
as the decomposition held after the filter has the dimensions of `V`. -/
theorem specializedIterationsConverged_returns (Zalloc : Nat → Nat → K)
    (newQR qrFiltered : QRFactorization K) (s : MVQNPostProcessing K)
    (hrows : s._matrixV.rows = qrFiltered.rows) (hcols : s._matrixV.cols = qrFiltered.cols)
    (hnodes : s._hasNodesOnInterface = true) :
    ∃ s₁ s₂, BaseQNPostProcessing.applyFilter [] qrFiltered (preconditionHistory newQR s)
        = some s₁ ∧ s₁ = { preconditionHistory newQR s with _qrV := qrFiltered } ∧
      buildJacobian Zalloc s₁ = some s₂ ∧
      specializedIterationsConverged Zalloc newQR [] qrFiltered s = some (revertHistory s₂) := by
  obtain ⟨-, -, hn, hr, hc⟩ := preconditionHistory_frame newQR s
  have hf : BaseQNPostProcessing.applyFilter [] qrFiltered (preconditionHistory newQR s)
      = some { preconditionHistory newQR s with _qrV := qrFiltered } := rfl
  have hassert : ({ preconditionHistory newQR s with _qrV := qrFiltered } :
        MVQNPostProcessing K)._matrixV.rows = qrFiltered.rows ∧
      getLSSystemCols ({ preconditionHistory newQR s with _qrV := qrFiltered } :
        MVQNPostProcessing K) = qrFiltered.cols :=
    ⟨hr.trans hrows, hc.trans hcols⟩
  obtain ⟨Z, hZ, -⟩ := pseudoInverse_eq
    ({ preconditionHistory newQR s with _qrV := qrFiltered } : MVQNPostProcessing K)
    ⟨qrFiltered.cols, qrFiltered.rows, Zalloc⟩ rfl rfl
    (fun h => by
      have h' : (preconditionHistory newQR s)._hasNodesOnInterface = false := h
      rw [hn, hnodes] at h'
      exact absurd h' (by simp))
  have hb := buildJacobian_eq Zalloc _ Z hZ hassert
  refine ⟨_, _, hf, rfl, hb, ?_⟩
  rw [specializedIterationsConverged_eq, hf, Option.some_bind, hb, Option.map_some']

/-- C11 (stale marking at convergence). For every state, whatever the stale
flag was before the call, and every `timestepsReused >= 0`: after
`specializedIterationsConverged` the stale flag `_resetLS` is true if and only
if `timestepsReused > 0` or `forceInitialRelaxation` is set, because
`buildJacobian` leaves the flag clear; and the call returns when no column is
filtered and the decomposition has the dimensions of `V`. -/
theorem specializedIterationsConverged_stale (Zalloc : Nat → Nat → K)
    (newQR : QRFactorization K) (delIndices : List Nat) (qrFiltered : QRFactorization K)
    (s : MVQNPostProcessing K) (hreuse : 0 ≤ s._timestepsReused) :
    (∀ s', specializedIterationsConverged Zalloc newQR delIndices qrFiltered s = some s' →
      (s'._resetLS = true ↔ (0 < s._timestepsReused ∨ s._forceInitialRelaxation = true))) ∧
    (delIndices = [] → s._matrixV.rows = qrFiltered.rows →
      s._matrixV.cols = qrFiltered.cols → s._hasNodesOnInterface = true →
      ∃ s', specializedIterationsConverged Zalloc newQR delIndices qrFiltered s = some s') := by
  constructor
  · intro s' h
    rw [specializedIterationsConverged_eq] at h
    cases h1 : BaseQNPostProcessing.applyFilter delIndices qrFiltered
        (preconditionHistory newQR s) with
    | none => rw [h1] at h; exact absurd h (by simp)
    | some s₁ =>
      rw [h1, Option.some_bind] at h
      cases h2 : buildJacobian Zalloc s₁ with
      | none => rw [h2] at h; exact absurd h (by simp)
      | some s₂ =>
        rw [h2, Option.map_some'] at h
        rw [← Option.some.inj h]
        have c1 := (preconditionHistory_frame newQR s).1
        have c2 := applyFilter_configuration _ _ _ _ h1
        obtain ⟨c3, hflag⟩ := buildJacobian_flag Zalloc s₁ s₂ h2
        have hc : configuration s₂ = configuration s := c3.trans (c2.trans c1)
        have hforce : s₂._forceInitialRelaxation = s._forceInitialRelaxation :=
          congrArg Prod.fst hc
        have htr : s₂._timestepsReused = s._timestepsReused :=
          congrArg (fun c => c.2.2) hc
        rw [← hforce, ← htr]
        exact revertHistory_flag s₂ hflag (by rw [htr]; exact hreuse)
  · intro hdel hrows hcols hnodes
    subst hdel
    obtain ⟨_, s₂, -, -, -, h⟩ :=
      specializedIterationsConverged_returns Zalloc newQR qrFiltered s hrows hcols hnodes
    exact ⟨_, h⟩

theorem readWtil_firstIteration (s : MVQNPostProcessing K) :
    (readWtil s)._firstIteration = s._firstIteration := by
  unfold readWtil
  split_ifs <;> rfl

theorem readWtil_clear (s : MVQNPostProcessing K) (h : s._resetLS = false) : readWtil s = s := by
  unfold readWtil
  rw [h]
  rfl

theorem revertHistory_Wtil (s : MVQNPostProcessing K) :
    (revertHistory s)._Wtil.rows = s._Wtil.rows ∧ (revertHistory s)._Wtil.cols = s._Wtil.cols := by
  unfold revertHistory
  simp only
  rw [(markStale_frame _).1]
  exact ⟨rfl, rfl⟩

theorem preconditionHistory_Wtil (newQR : QRFactorization K) (s : MVQNPostProcessing K) :
    (preconditionHistory newQR s)._Wtil.rows = s._Wtil.rows ∧
    (preconditionHistory newQR s)._Wtil.cols = s._Wtil.cols := by
  unfold preconditionHistory
  simp only
  split_ifs <;> exact ⟨rfl, rfl⟩

/-- With the stale flag clear and no column filtered, a returning
`specializedIterationsConverged` leaves the dimensions of `_Wtil` as they are. -/
theorem specializedIterationsConverged_Wtil (Zalloc : Nat → Nat → K)
    (newQR qrFiltered : QRFactorization K) (s s' : MVQNPostProcessing K)
    (hclear : s._resetLS = false)
    (h : specializedIterationsConverged Zalloc newQR [] qrFiltered s = some s') :
    s'._Wtil.rows = s._Wtil.rows ∧ s'._Wtil.cols = s._Wtil.cols := by
  rw [specializedIterationsConverged_eq] at h
  have hf : BaseQNPostProcessing.applyFilter [] qrFiltered (preconditionHistory newQR s)
      = some { preconditionHistory newQR s with _qrV := qrFiltered } := rfl
  rw [hf, Option.some_bind] at h
  cases h2 : buildJacobian Zalloc
      ({ preconditionHistory newQR s with _qrV := qrFiltered } : MVQNPostProcessing K) with
  | none => rw [h2] at h; exact absurd h (by simp)
  | some s₂ =>
    rw [h2, Option.map_some'] at h
    rw [← Option.some.inj h]
    obtain ⟨Z, -, -, rfl⟩ := buildJacobian_some Zalloc _ s₂ h2
    have hflag : ({ preconditionHistory newQR s with _qrV := qrFiltered } :
        MVQNPostProcessing K)._resetLS = false :=
      (preconditionHistory_frame newQR s).2.1.trans hclear
    rw [(revertHistory_Wtil _).1, (revertHistory_Wtil _).2]
    simp only [readWtil_clear _ hflag]
    exact preconditionHistory_Wtil newQR s

/-- C12, as amended (discard of the auxiliary matrix). For every state in
which `timestepsReused == 0`, `forceInitialRelaxation` is not set and
`_firstIteration` holds, the implicit update `computeNewtonUpdateEfficient`
discards the auxiliary matrix once the update is computed: `_Wtil` has zero
size (`0 × 0`) and the stale flag is set after the call. -/
theorem computeNewtonUpdateEfficient_discards (Zalloc : Nat → Nat → K)
    (s : MVQNPostProcessing K) (Z : MatrixXd K)
    (hfirst : s._firstIteration = true) (hreuse : s._timestepsReused = 0)
    (hforce : s._forceInitialRelaxation = false)
    (hZ : pseudoInverse s ⟨s._qrV.cols, s._qrV.rows, Zalloc⟩ = some Z)
    (hassert : s._matrixV.rows = s._qrV.rows ∧ getLSSystemCols s = s._qrV.cols) :
    ∃ s' xUpdate, computeNewtonUpdateEfficient Zalloc s = some (s', xUpdate) ∧
      s'._Wtil.rows = 0 ∧ s'._Wtil.cols = 0 ∧ s'._Wtil.size = 0 ∧ s'._resetLS = true := by
  have hc := readWtil_configuration s
  have hf : (readWtil s)._forceInitialRelaxation = false :=
    (congrArg Prod.fst hc).trans hforce
  have hr : (readWtil s)._timestepsReused = 0 :=
    (congrArg (fun c => c.2.2) hc).trans hreuse
  have hi : (readWtil s)._firstIteration = true := (readWtil_firstIteration s).trans hfirst
  refine ⟨_, _, computeNewtonUpdateEfficient_eq Zalloc s Z hZ hassert, ?_⟩
  simp [hf, hr, hi, MatrixXd.conservativeResize, MatrixXd.size]

/-! ### The claims on the history -/

/-- What one call of `updateDifferenceMatrices` does to `_Wtil`. -/
theorem updateDifferenceMatrices_Wtil (residuals deltaR deltaXTilde : VectorXd K)
    (qr : QRFactorization K) (s : MVQNPostProcessing K) :
    (updateDifferenceMatrices residuals deltaR deltaXTilde qr s)._maxIterationsUsed
        = s._maxIterationsUsed ∧
    ((∃ wtil, (updateDifferenceMatrices residuals deltaR deltaXTilde qr s)._Wtil
          = appendFront s._Wtil wtil ∧
        (updateDifferenceMatrices residuals deltaR deltaXTilde qr s)._Wtil.cols
          = s._Wtil.cols + 1 ∧
        (s._Wtil.cols : Int) ≠ s._maxIterationsUsed ∧ s._Wtil.cols ≤ residuals.size) ∨
     (∃ wtil, (updateDifferenceMatrices residuals deltaR deltaXTilde qr s)._Wtil
          = shiftSetFirst s._Wtil wtil ∧
        (updateDifferenceMatrices residuals deltaR deltaXTilde qr s)._Wtil.cols
          = s._Wtil.cols ∧
        ¬ ((s._Wtil.cols : Int) ≠ s._maxIterationsUsed ∧ s._Wtil.cols ≤ residuals.size)) ∨
     (updateDifferenceMatrices residuals deltaR deltaXTilde qr s)._Wtil = s._Wtil) := by
  cases hfirst : s._firstIteration with
  | true =>
    rw [updateDifferenceMatrices_first _ _ _ _ _ hfirst]
    exact ⟨rfl, Or.inr (Or.inr rfl)⟩
  | false =>
    rw [updateDifferenceMatrices_eq _ _ _ _ _ hfirst]
    refine ⟨rfl, ?_⟩
    cases ha : appends s._Wtil.cols s._maxIterationsUsed residuals.size with
    | true =>
      left
      refine ⟨_, rfl, rfl, ?_⟩
      simpa [appends] using ha
    | false =>
      right; left
      refine ⟨_, rfl, rfl, ?_⟩
      simpa [appends] using ha

theorem removeMatrixColumn_Wtil_cols (k : Nat) (s s' : MVQNPostProcessing K)
    (h : removeMatrixColumn k s = some s') :
    s'._Wtil.cols ≤ s._Wtil.cols ∧ s'._maxIterationsUsed = s._maxIterationsUsed := by
  unfold removeMatrixColumn at h
  by_cases h1 : 1 < s._matrixV.cols ∧ 1 < s._Wtil.cols
  · rw [if_pos h1] at h
    have h' := Option.some.inj h
    subst h'
    simp only [BaseQNPostProcessing.removeMatrixColumn]
    split_ifs
    · exact ⟨Nat.sub_le _ _, rfl⟩
    · exact ⟨le_refl _, rfl⟩
  · rw [if_neg h1] at h
    exact absurd h (by simp)

/-- What one call of `updateDifferenceMatrices` outside the first iteration does
to `_Wtil`: the column `w - J_prev * v` of the newest deltas becomes column 0 and
the old columns move one place to the right; a column is added exactly when the
column limit is not reached and the system is not overdetermined. -/
theorem updateDifferenceMatrices_Wtil_next (residuals deltaR deltaXTilde : VectorXd K)
    (qr : QRFactorization K) (s : MVQNPostProcessing K) (hfirst : s._firstIteration = false) :
    (updateDifferenceMatrices residuals deltaR deltaXTilde qr s)._Wtil.cols =
      (if (s._Wtil.cols : Int) ≠ s._maxIterationsUsed ∧ s._Wtil.cols ≤ residuals.size
        then s._Wtil.cols + 1 else s._Wtil.cols) ∧
    (∀ i, (updateDifferenceMatrices residuals deltaR deltaXTilde qr s)._Wtil.coeff i 0 =
      deltaXTilde.coeff i -
        ∑ k in range residuals.size, s._oldInvJacobian.coeff i k * deltaR.coeff k) ∧
    (∀ i j, (updateDifferenceMatrices residuals deltaR deltaXTilde qr s)._Wtil.coeff i (j + 1) =
      s._Wtil.coeff i j) := by
  rw [updateDifferenceMatrices_eq _ _ _ _ _ hfirst]
  refine ⟨?_, ?_, ?_⟩
  · show (extend s._Wtil _ _).cols = _
    rw [extend_cols]
    by_cases h : (s._Wtil.cols : Int) ≠ s._maxIterationsUsed ∧ s._Wtil.cols ≤ residuals.size
    · have ha : appends s._Wtil.cols s._maxIterationsUsed residuals.size = true := by
        simpa [appends] using h
      rw [ha, if_pos h, if_pos rfl]
    · have ha : appends s._Wtil.cols s._maxIterationsUsed residuals.size = false := by
        simpa [appends] using h
      rw [ha, if_neg h, if_neg (by simp)]
  · intro i
    show (extend s._Wtil _ _).coeff i 0 = _
    rw [extend_coeff, if_pos rfl]
    simp only [VectorXd.sub, multiplyVec, MatrixXd.col, extend_coeff, if_true]
  · intro i j
    show (extend s._Wtil _ _).coeff i (j + 1) = _
    rw [extend_coeff, if_neg (Nat.succ_ne_zero j)]
    rfl

/-- C6 (history bound). Starting from the state after `initialize`, where
`_Wtil` has no column, and for every `maxIterationsUsed >= 1`: after any
sequence of `updateDifferenceMatrices` and `removeMatrixColumn` calls the
column count of `_Wtil` never exceeds `maxIterationsUsed`. A call of
`updateDifferenceMatrices` adds a column only when
`_Wtil.cols() != maxIterationsUsed` and `_Wtil.cols() <= rows`; whenever it
inserts, which is in every iteration but the first of a timestep, it adds the
column under this condition and otherwise replaces with the column count
unchanged, and in both cases the column `w - J_prev * v` of the newest deltas
is column 0 and every old column moves one place to the right, so that on a
replacement the oldest column is dropped; in the first iteration, where there
are no deltas, `_Wtil` stays as it is. -/
theorem history_bound (base s : MVQNPostProcessing K) (hmax : 1 ≤ base._maxIterationsUsed)
    (h : HistoryReachable base s) :
    (s._Wtil.cols : Int) ≤ s._maxIterationsUsed ∧
    ∀ (residuals deltaR deltaXTilde : VectorXd K) (qr : QRFactorization K)
      (s' : MVQNPostProcessing K),
      updateDifferenceMatrices residuals deltaR deltaXTilde qr s = s' →
      (s'._Wtil.cols : Int) ≤ s'._maxIterationsUsed ∧
      (s'._Wtil.cols = s._Wtil.cols + 1 →
        s._firstIteration = false ∧
        (s._Wtil.cols : Int) ≠ s._maxIterationsUsed ∧ s._Wtil.cols ≤ residuals.size) ∧
      (s._firstIteration = false →
        (((s._Wtil.cols : Int) ≠ s._maxIterationsUsed ∧ s._Wtil.cols ≤ residuals.size) →
          s'._Wtil.cols = s._Wtil.cols + 1) ∧
        (¬ ((s._Wtil.cols : Int) ≠ s._maxIterationsUsed ∧ s._Wtil.cols ≤ residuals.size) →
          s'._Wtil.cols = s._Wtil.cols) ∧
        (∀ i, s'._Wtil.coeff i 0 = deltaXTilde.coeff i -
          ∑ k in range residuals.size, s._oldInvJacobian.coeff i k * deltaR.coeff k) ∧
        (∀ i j, s'._Wtil.coeff i (j + 1) = s._Wtil.coeff i j)) ∧
      (s._firstIteration = true → s'._Wtil = s._Wtil) := by
  have key : ∀ s : MVQNPostProcessing K, HistoryReachable base s →
      s._maxIterationsUsed = base._maxIterationsUsed ∧
      (s._Wtil.cols : Int) ≤ s._maxIterationsUsed := by
    intro s h
    induction h with
    | init =>
      refine ⟨rfl, ?_⟩
      show ((0 : Nat) : Int) ≤ base._maxIterationsUsed
      omega
    | @update residuals deltaR deltaXTilde qr s₀ _ ih =>
      obtain ⟨hm, hcase⟩ := updateDifferenceMatrices_Wtil residuals deltaR deltaXTilde qr s₀
      refine ⟨hm.trans ih.1, ?_⟩
      rw [hm]
      rcases hcase with ⟨_, _, hc, hne, _⟩ | ⟨_, _, hc, _⟩ | hc
      · rw [hc]
        have := ih.2
        push_cast
        omega
      · rw [hc]; exact ih.2
      · rw [hc]; exact ih.2
    | @remove k s₀ s₁ _ hrem ih =>
      obtain ⟨hle, hm⟩ := removeMatrixColumn_Wtil_cols k _ _ hrem
      refine ⟨hm.trans ih.1, ?_⟩
      rw [hm]
      have := ih.2
      omega
    | @environment s₀ s₁ _ hW hm ih =>
      refine ⟨hm.trans ih.1, ?_⟩
      rw [hm, hW]
      exact ih.2
  refine ⟨(key s h).2, ?_⟩
  intro residuals deltaR deltaXTilde qr s' hs'
  subst hs'
  refine ⟨(key _ (HistoryReachable.update residuals deltaR deltaXTilde qr h)).2, ?_, ?_, ?_⟩
  · intro hc
    cases hfirst : s._firstIteration with
    | true =>
      rw [updateDifferenceMatrices_first _ _ _ _ _ hfirst] at hc
      simp at hc
    | false =>
      refine ⟨rfl, ?_⟩
      have h1 := (updateDifferenceMatrices_Wtil_next residuals deltaR deltaXTilde qr s hfirst).1
      by_contra hn
      rw [if_neg hn] at h1
      omega
  · intro hfirst
    obtain ⟨h1, h2, h3⟩ :=
      updateDifferenceMatrices_Wtil_next residuals deltaR deltaXTilde qr s hfirst
    refine ⟨fun hc => ?_, fun hc => ?_, h2, h3⟩
    · rw [h1, if_pos hc]
    · rw [h1, if_neg hc]
  · intro hfirst
    rw [updateDifferenceMatrices_first _ _ _ _ _ hfirst]

theorem removeMatrixColumn_eq (columnIndex : Nat) (s : MVQNPostProcessing K)
    (h : 1 < s._matrixV.cols ∧ 1 < s._Wtil.cols) :
    removeMatrixColumn columnIndex s = some
      { s with
        _Wtil := if s._resetLS then s._Wtil else removeColumnFromMatrix s._Wtil columnIndex
        _matrixV := removeColumnFromMatrix s._matrixV columnIndex
        _matrixW := removeColumnFromMatrix s._matrixW columnIndex } := by
  unfold removeMatrixColumn
  rw [if_pos h]
  cases hr : s._resetLS <;> simp [BaseQNPostProcessing.removeMatrixColumn, hr]

theorem removeMatrixColumn_some (columnIndex : Nat) (s s' : MVQNPostProcessing K)
    (h : removeMatrixColumn columnIndex s = some s') :
    (1 < s._matrixV.cols ∧ 1 < s._Wtil.cols) ∧
    s' = { s with
        _Wtil := if s._resetLS then s._Wtil else removeColumnFromMatrix s._Wtil columnIndex
        _matrixV := removeColumnFromMatrix s._matrixV columnIndex
        _matrixW := removeColumnFromMatrix s._matrixW columnIndex } := by
  by_cases h1 : 1 < s._matrixV.cols ∧ 1 < s._Wtil.cols
  · rw [removeMatrixColumn_eq columnIndex s h1] at h
    exact ⟨h1, (Option.some.inj h).symm⟩
  · unfold removeMatrixColumn at h
    rw [if_neg h1] at h
    exact absurd h (by simp)

/-- C9 (column eviction keeps alignment). For every state with the stale flag
clear, `V.cols() = W.cols() = _Wtil.cols() = c > 1` and every valid
`columnIndex`: `removeMatrixColumn` returns, `_Wtil` is the old `_Wtil` with
exactly column `columnIndex` deleted, the other columns in their order, and
`V`, `W` and `_Wtil` all have `c - 1` columns. For every state with the stale
flag set, `removeMatrixColumn` leaves `_Wtil` unchanged (and returns when its
assertions hold). -/
theorem removeMatrixColumn_spec (columnIndex : Nat) (s : MVQNPostProcessing K) (c : Nat) :
    (s._resetLS = false → s._matrixV.cols = c → s._matrixW.cols = c → s._Wtil.cols = c →
      1 < c → columnIndex < c →
      ∃ s', removeMatrixColumn columnIndex s = some s' ∧
        s'._Wtil.rows = s._Wtil.rows ∧
        s'._Wtil.cols = c - 1 ∧ s'._matrixV.cols = c - 1 ∧ s'._matrixW.cols = c - 1 ∧
        (∀ i j, j < columnIndex → s'._Wtil.coeff i j = s._Wtil.coeff i j) ∧
        (∀ i j, columnIndex ≤ j → s'._Wtil.coeff i j = s._Wtil.coeff i (j + 1))) ∧
    (s._resetLS = true →
      (1 < s._matrixV.cols → 1 < s._Wtil.cols →
        ∃ s', removeMatrixColumn columnIndex s = some s') ∧
      ∀ s', removeMatrixColumn columnIndex s = some s' → s'._Wtil = s._Wtil) := by
  constructor
  · intro hclear hV hW hT hc hk
    refine ⟨_, removeMatrixColumn_eq columnIndex s ⟨by omega, by omega⟩, ?_⟩
    simp only [hclear, Bool.false_eq_true, if_false, removeColumnFromMatrix, hV, hW, hT]
    refine ⟨trivial, trivial, trivial, trivial, ?_, ?_⟩
    · intro i j hj
      rw [if_pos hj]
    · intro i j hj
      rw [if_neg (by omega)]
  · intro hset
    constructor
    · intro h1 h2
      exact ⟨_, removeMatrixColumn_eq columnIndex s ⟨h1, h2⟩⟩
    · intro s' h
      obtain ⟨-, rfl⟩ := removeMatrixColumn_some columnIndex s s' h
      simp only [hset, if_true]

/-- C8 (incremental update equals wholesale rebuild). In exact arithmetic and
in a single process, for every state outside the first iteration in which
`V`, `W` and `_Wtil` have the same `m` columns and `_Wtil = W - J_prev * V`:
after `updateDifferenceMatrices`, in which the scaffolding extends `V` and `W`
by the rule the accelerator uses for `_Wtil` (new delta as column 0, oldest
column dropped exactly when `_Wtil.cols() == maxIterationsUsed` or
`_Wtil.cols() > rows`), the three matrices still have the same column count,
column 0 of `_Wtil` is `W.col(0) - J_prev * V.col(0)`, the whole `_Wtil` is
`W - J_prev * V` for the updated `V` and `W`, and it is the matrix that
`buildWtil` computes. -/
theorem updateDifferenceMatrices_tracked (residuals deltaR deltaXTilde : VectorXd K)
    (qr : QRFactorization K) (s : MVQNPostProcessing K) (n m : Nat)
    (hfirst : s._firstIteration = false)
    (hshape : HasShape s n m) (htr : WtilTracked s n m)
    (hres : residuals.size = n) (hdR : deltaR.size = n) (hdX : deltaXTilde.size = n) :
    ∃ s', updateDifferenceMatrices residuals deltaR deltaXTilde qr s = s' ∧
      s'._matrixV = extend s._matrixV deltaR (appends s._Wtil.cols s._maxIterationsUsed n) ∧
      s'._matrixW = extend s._matrixW deltaXTilde (appends s._Wtil.cols s._maxIterationsUsed n) ∧
      s'._oldInvJacobian = s._oldInvJacobian ∧
      s'._matrixV.cols = s'._Wtil.cols ∧ s'._matrixW.cols = s'._Wtil.cols ∧
      (s'._Wtil.col 0).toVec n
        = (s'._matrixW.col 0).toVec n
          - Matrix.mulVec (s'._oldInvJacobian.toMatrix n n) ((s'._matrixV.col 0).toVec n) ∧
      HasShape s' n s'._Wtil.cols ∧
      WtilTracked s' n s'._Wtil.cols ∧
      (qr.rows = n ∧ qr.cols = s'._matrixV.cols →
        ∃ s'', buildWtil s' = some s'' ∧ MatrixXd.Same s''._Wtil s'._Wtil) := by
  obtain ⟨hres0, hVr, hVc, hWr, hWc, hJr, hJc⟩ := hshape
  obtain ⟨hTr, hTc, hT⟩ := htr
  refine ⟨_, rfl, ?_⟩
  rw [updateDifferenceMatrices_eq _ _ _ _ _ hfirst]
  rw [hVc, hTc, hres]
  have hcols : ∀ (A : MatrixXd K) (v w : VectorXd K) (B : MatrixXd K), A.cols = m → B.cols = m →
      (extend A v (appends m s._maxIterationsUsed n)).cols
        = (extend B w (appends m s._maxIterationsUsed n)).cols := by
    intro A v w B hA hB
    rw [extend_cols, extend_cols, hA, hB]
  have hle : (extend s._Wtil
      (((extend s._matrixW deltaXTilde (appends m s._maxIterationsUsed n)).col 0).sub
        (multiplyVec s._oldInvJacobian
          ((extend s._matrixV deltaR (appends m s._maxIterationsUsed n)).col 0) n n))
      (appends m s._maxIterationsUsed n)).cols ≤ m + 1 := by
    rw [extend_cols, hTc]
    split_ifs <;> omega
  have hrowsV : (extend s._matrixV deltaR (appends m s._maxIterationsUsed n)).rows = n := by
    rw [extend_rows]; split_ifs <;> assumption
  have hrowsW : (extend s._matrixW deltaXTilde (appends m s._maxIterationsUsed n)).rows = n := by
    rw [extend_rows]; split_ifs <;> assumption
  have hrowsT : (extend s._Wtil
      (((extend s._matrixW deltaXTilde (appends m s._maxIterationsUsed n)).col 0).sub
        (multiplyVec s._oldInvJacobian
          ((extend s._matrixV deltaR (appends m s._maxIterationsUsed n)).col 0) n n))
      (appends m s._maxIterationsUsed n)).rows = n := by
    rw [extend_rows]
    split_ifs
    · simp only [VectorXd.sub, MatrixXd.col]
      exact hrowsW
    · exact hTr
  have htracked := extend_tracked s._matrixV s._matrixW s._Wtil s._oldInvJacobian deltaR
    deltaXTilde n m _ (appends m s._maxIterationsUsed n) hle hT
  refine ⟨rfl, rfl, rfl, hcols _ _ _ _ hVc hTc, hcols _ _ _ _ hWc hTc, ?_, ?_, ?_, ?_⟩
  · ext i
    simp only [VectorXd.toVec, MatrixXd.col, extend_coeff, if_true, VectorXd.sub, multiplyVec,
      Pi.sub_apply, Matrix.mulVec, Matrix.dotProduct, MatrixXd.toMatrix]
    rw [Finset.sum_range]
  · exact ⟨hres, hrowsV, hcols _ _ _ _ hVc hTc, hrowsW, hcols _ _ _ _ hWc hTc, hJr, hJc⟩
  · exact ⟨hrowsT, rfl, htracked⟩
  · intro hq
    refine ⟨_, buildWtil_eq _ ⟨?_, ?_⟩, ?_⟩
    · simp only [hrowsV, hq.1]
    · simp only [getLSSystemCols, hq.2]
    · have hle' : (extend s._matrixV deltaR (appends m s._maxIterationsUsed n)).cols ≤ m + 1 := by
        rw [extend_cols, hVc]
        split_ifs <;> omega
      have htracked' := extend_tracked s._matrixV s._matrixW s._Wtil s._oldInvJacobian deltaR
        deltaXTilde n m _ (appends m s._maxIterationsUsed n) hle' hT
      simp only [getLSSystemRows, getLSSystemCols, hres]
      refine same_of_toMatrix _ _ n
        (extend s._matrixV deltaR (appends m s._maxIterationsUsed n)).cols rfl rfl hrowsT
        (hcols _ _ _ _ hVc hTc).symm ?_
      rw [toMatrix_rebuilt, htracked']

/-! ### Preconditioning in `computeQNUpdate` -/

theorem computeQNUpdate_eq (Zalloc : Nat → Nat → K) (s : MVQNPostProcessing K) :
    computeQNUpdate Zalloc s
      = (computeNewtonUpdateEfficient Zalloc (preconditionJacobian s)).map
          (fun r => (revertJacobian r.1, r.2)) := by
  unfold computeQNUpdate
  simp only
  show (match computeNewtonUpdateEfficient Zalloc (preconditionJacobian s) with
    | none => none
    | some (s, xUpdate) => _) = _
  cases computeNewtonUpdateEfficient Zalloc (preconditionJacobian s) with
  | none => rfl
  | some r => rfl

theorem computeNewtonUpdateEfficient_some (Zalloc : Nat → Nat → K)
    (s s' : MVQNPostProcessing K) (x : VectorXd K)
    (h : computeNewtonUpdateEfficient Zalloc s = some (s', x)) :
    ∃ Z, pseudoInverse s ⟨s._qrV.cols, s._qrV.rows, Zalloc⟩ = some Z ∧
      (s._matrixV.rows = s._qrV.rows ∧ getLSSystemCols s = s._qrV.cols) ∧
      s' = (if (readWtil s)._firstIteration && (readWtil s)._timestepsReused == 0
            && !(readWtil s)._forceInitialRelaxation then
          { readWtil s with
            _Wtil := (readWtil s)._Wtil.conservativeResize 0 0, _resetLS := true }
        else readWtil s) := by
  cases hZ : pseudoInverse s ⟨s._qrV.cols, s._qrV.rows, Zalloc⟩ with
  | none => simp [computeNewtonUpdateEfficient, hZ] at h
  | some Z =>
    by_cases ha : s._matrixV.rows = s._qrV.rows ∧ getLSSystemCols s = s._qrV.cols
    · refine ⟨Z, rfl, ha, ?_⟩
      rw [computeNewtonUpdateEfficient_eq Zalloc s Z hZ ha] at h
      exact (congrArg Prod.fst (Option.some.inj h)).symm
    · simp only [computeNewtonUpdateEfficient, hZ] at h
      rw [if_neg ha] at h
      exact absurd h (by simp)

theorem preconditionJacobian_frame (s : MVQNPostProcessing K) :
    (preconditionJacobian s)._preconditioner = s._preconditioner ∧
    (preconditionJacobian s)._resetLS = s._resetLS ∧
    (preconditionJacobian s)._firstIteration = s._firstIteration ∧
    (preconditionJacobian s)._timestepsReused = s._timestepsReused ∧
    (preconditionJacobian s)._forceInitialRelaxation = s._forceInitialRelaxation ∧
    (preconditionJacobian s)._oldInvJacobian
      = s._preconditioner.revert (s._preconditioner.apply s._oldInvJacobian false) true ∧
    (preconditionJacobian s)._Wtil
      = (if s._Wtil.size > 0 then s._preconditioner.apply s._Wtil false else s._Wtil) := by
  unfold preconditionJacobian
  simp only
  split_ifs <;> exact ⟨rfl, rfl, rfl, rfl, rfl, rfl, rfl⟩

theorem revertJacobian_frame (s : MVQNPostProcessing K) :
    (revertJacobian s)._oldInvJacobian
      = s._preconditioner.apply (s._preconditioner.revert s._oldInvJacobian false) true ∧
    (revertJacobian s)._Wtil
      = (if s._Wtil.size > 0 then s._preconditioner.revert s._Wtil false else s._Wtil) := by
  unfold revertJacobian
  simp only
  split_ifs <;> exact ⟨rfl, rfl⟩

/-- Reverting undoes applying, for an invertible diagonal scaling. -/
theorem revert_apply (P : Preconditioner K) (hw : ∀ i, P.weights i ≠ 0) (M : MatrixXd K)
    (t : Bool) : P.revert (P.apply M t) t = M := by
  cases M
  simp only [Preconditioner.apply, Preconditioner.revert]
  congr 1
  funext i j
  exact mul_div_cancel_right₀ _ (hw _)

/-- The four scalings of `J_prev` in `computeQNUpdate` cancel. -/
theorem jacobian_roundtrip (P : Preconditioner K) (hw : ∀ i, P.weights i ≠ 0) (M : MatrixXd K) :
    P.apply (P.revert (P.revert (P.apply M false) true) false) true = M := by
  cases M
  simp only [Preconditioner.apply, Preconditioner.revert]
  congr 1
  funext i j
  have h1 := hw i
  have h2 := hw j
  simp only [Bool.false_eq_true, if_false, if_true]
  field_simp
  ring

/-- C10 (preconditioning is reverted symmetrically in `computeQNUpdate`). For
a preconditioner that is an invertible diagonal scaling (every weight is
non-zero, so that `revert` undoes `apply` for both values of the transpose
flag) and for every state: whenever `computeQNUpdate` returns, it leaves
`_oldInvJacobian` equal to its value before the call and, when the stale flag
is clear and the first-iteration discard branch is not taken, leaves `_Wtil`
equal to its value before the call; and it returns whenever the assertions of
the implicit strategy hold. -/
theorem computeQNUpdate_frame (Zalloc : Nat → Nat → K) (s : MVQNPostProcessing K)
    (hw : ∀ i, s._preconditioner.weights i ≠ 0) :
    (∀ s' xUpdate, computeQNUpdate Zalloc s = some (s', xUpdate) →
      s'._oldInvJacobian = s._oldInvJacobian ∧
      (s._resetLS = false →
        ¬ (s._firstIteration = true ∧ s._timestepsReused = 0 ∧
            s._forceInitialRelaxation = false) →
        s'._Wtil = s._Wtil)) ∧
    (∀ Z, pseudoInverse s ⟨s._qrV.cols, s._qrV.rows, Zalloc⟩ = some Z →
      s._matrixV.rows = s._qrV.rows → getLSSystemCols s = s._qrV.cols →
      ∃ s' xUpdate, computeQNUpdate Zalloc s = some (s', xUpdate)) := by
  obtain ⟨fP, fR, fI, fT, fF, fJ, fW⟩ := preconditionJacobian_frame s
  constructor
  · intro s' x h
    rw [computeQNUpdate_eq] at h
    cases hc : computeNewtonUpdateEfficient Zalloc (preconditionJacobian s) with
    | none => rw [hc] at h; exact absurd h (by simp)
    | some r =>
      obtain ⟨s₁, x₁⟩ := r
      rw [hc, Option.map_some'] at h
      have hs' : s' = revertJacobian s₁ := (congrArg Prod.fst (Option.some.inj h)).symm
      obtain ⟨Z, -, -, hs₁⟩ := computeNewtonUpdateEfficient_some Zalloc _ s₁ x₁ hc
      obtain ⟨gV, gW, gJ, gres, gq, gflag⟩ := readWtil_frame (preconditionJacobian s)
      have gP := readWtil_preconditioner (preconditionJacobian s)
      have hJ₁ : s₁._oldInvJacobian = (preconditionJacobian s)._oldInvJacobian := by
        rw [hs₁]
        split_ifs
        · exact gJ
        · exact gJ
      have hP₁ : s₁._preconditioner = s._preconditioner := by
        rw [hs₁]
        split_ifs
        · exact gP.trans fP
        · exact gP.trans fP
      constructor
      · rw [hs', (revertJacobian_frame s₁).1, hJ₁, fJ, hP₁]
        exact jacobian_roundtrip _ hw _
      · intro hclear hnot
        have hread : readWtil (preconditionJacobian s) = preconditionJacobian s :=
          readWtil_clear _ (fR.trans hclear)
        have hcond : ((preconditionJacobian s)._firstIteration
            && (preconditionJacobian s)._timestepsReused == 0
            && !(preconditionJacobian s)._forceInitialRelaxation) = false := by
          rw [fI, fT, fF]
          cases h1 : s._firstIteration <;> cases h3 : s._forceInitialRelaxation <;>
            simp_all
        rw [hread, hcond] at hs₁
        simp only [Bool.false_eq_true, if_false] at hs₁
        rw [hs', (revertJacobian_frame s₁).2, hs₁, fW, fP]
        by_cases hsize : s._Wtil.size > 0
        · have hsize' : (s._preconditioner.apply s._Wtil false).size > 0 := hsize
          rw [if_pos hsize, if_pos hsize']
          exact revert_apply _ hw _ _
        · rw [if_neg hsize, if_neg hsize]
  · intro Z hZ hr hc
    have hZ' : pseudoInverse (preconditionJacobian s)
        ⟨(preconditionJacobian s)._qrV.cols, (preconditionJacobian s)._qrV.rows, Zalloc⟩
          = some Z := by
      rw [← hZ]
      unfold preconditionJacobian
      simp only
      split_ifs <;> rfl
    have ha : (preconditionJacobian s)._matrixV.rows = (preconditionJacobian s)._qrV.rows ∧
        getLSSystemCols (preconditionJacobian s) = (preconditionJacobian s)._qrV.cols := by
      unfold preconditionJacobian
      simp only
      split_ifs <;> exact ⟨hr, hc⟩
    rw [computeQNUpdate_eq, computeNewtonUpdateEfficient_eq Zalloc _ Z hZ' ha]
    exact ⟨_, _, rfl⟩

/-! ### Validity of the auxiliary matrix over the reachable states -/

theorem trackedFor_iff (s : MVQNPostProcessing K) (n : Nat) :
    TrackedFor s._oldInvJacobian s n ↔ WtilTracked s n s._matrixV.cols := Iff.rfl

end Properties

/-! ### The ring of processes -/

/-- The worked example is a decomposition `V = Q * R`. -/
theorem exampleState_decomposition :
    IsDecomposition exampleState._qrV exampleState._matrixV 2 2 := by
  refine ⟨rfl, rfl, rfl, rfl, rfl, rfl, rfl, rfl, ?_, ?_, ?_, ?_⟩
  · ext i j
    fin_cases i <;> fin_cases j <;>
      simp [Matrix.mul_apply, Fin.sum_univ_succ, MatrixXd.toMatrix, exampleState, mat22]
  · intro i hi j hj
    interval_cases i <;> interval_cases j <;> simp [exampleState, mat22]
  · intro i hi
    interval_cases i; all_goals simp [exampleState, mat22]
  · ext i j
    fin_cases i <;> fin_cases j <;>
      simp [Matrix.mul_apply, Fin.sum_univ_succ, MatrixXd.toMatrix, exampleState, mat22]

/-- C5, witness: the worked example satisfies the hypotheses of
`pseudoInverse_spec`, so its pseudo-inverse is a left inverse of `V`. -/
theorem pseudoInverse_spec_witness :
    IsDecomposition exampleState._qrV exampleState._matrixV 2 2 ∧
    ∃ Z, pseudoInverse exampleState (MatrixXd.Zero 2 2) = some Z ∧
      Z.toMatrix 2 2 * exampleState._matrixV.toMatrix 2 2 = 1 :=
  ⟨exampleState_decomposition,
    (pseudoInverse_spec exampleState exampleState._matrixV (MatrixXd.Zero 2 2) 2 2
      exampleState_decomposition rfl rfl (fun h => by simp [exampleState] at h)).imp
      (fun _ h => ⟨h.1, h.2.2.2.2.2.2.2⟩)⟩

/-- The worked example has two unknowns and two history columns. -/
theorem exampleState_shape : HasShape exampleState 2 2 :=
  ⟨rfl, rfl, rfl, rfl, rfl, rfl, rfl⟩

/-- In the worked example `_Wtil` is `W - J_prev * V`. -/
theorem exampleState_tracked : WtilTracked exampleState 2 2 := by
  refine ⟨rfl, rfl, ?_⟩
  ext i j
  fin_cases i <;> fin_cases j <;>
    simp [Matrix.mul_apply, Fin.sum_univ_succ, MatrixXd.toMatrix, exampleState, mat22] <;>
    norm_num

/-- C1, witness: the worked example satisfies the hypotheses of
`buildJacobian_secant`, so the Jacobian built from it maps `V` to `W`. -/
theorem buildJacobian_secant_witness :
    HasShape exampleState 2 2 ∧ IsDecomposition exampleState._qrV exampleState._matrixV 2 2 ∧
    WtilTracked exampleState 2 2 ∧
    ∃ s', buildJacobian (fun _ _ => 0) exampleState = some s' ∧
      s'._invJacobian.toMatrix 2 2 * s'._matrixV.toMatrix 2 2 = s'._matrixW.toMatrix 2 2 :=
  ⟨exampleState_shape, exampleState_decomposition, exampleState_tracked,
    (buildJacobian_secant (fun _ _ => 0) exampleState 2 2 exampleState_shape
      exampleState_decomposition (fun h => by simp [exampleState] at h)
      (Or.inr exampleState_tracked)).imp
      (fun _ h => ⟨h.1, h.2.2.2.2.2.1⟩)⟩

/-- C2, witness: in the worked example both strategies return the same update. -/
theorem strategies_agree_witness :
    HasShape exampleState 2 2 ∧ IsDecomposition exampleState._qrV exampleState._matrixV 2 2 ∧
    exampleState._resetLS = false ∧ WtilTracked exampleState 2 2 ∧
    ∃ s₁ x₁ s₂ x₂, computeNewtonUpdateEfficient (fun _ _ => 0) exampleState = some (s₁, x₁) ∧
      computeNewtonUpdate (fun _ _ => 0) exampleState = some (s₂, x₂) ∧
      x₁.toVec 2 = x₂.toVec 2 :=
  ⟨exampleState_shape, exampleState_decomposition, rfl, exampleState_tracked,
    match strategies_agree (fun _ _ => 0) exampleState 2 2 exampleState_shape
      exampleState_decomposition (fun h => by simp [exampleState] at h) rfl
      exampleState_tracked with
    | ⟨s₁, x₁, s₂, x₂, _, h₁, h₂, _, _, _, hx, _⟩ => ⟨s₁, x₁, s₂, x₂, h₁, h₂, hx⟩⟩

/-- C3, witness: in the worked example the implicit strategy returns the update
given by the formula, for the matrix `Z` that `pseudoInverse` produces. -/
theorem computeNewtonUpdateEfficient_formula_witness :
    HasShape exampleState 2 2 ∧
    ∃ Z, pseudoInverse exampleState ⟨2, 2, fun _ _ => 0⟩ = some Z ∧
      ∃ s' xUpdate, computeNewtonUpdateEfficient (fun _ _ => 0) exampleState
          = some (s', xUpdate) ∧
        xUpdate.toVec 2
          = Matrix.mulVec (exampleState._oldInvJacobian.toMatrix 2 2)
              (- exampleState._residuals.toVec 2)
            + Matrix.mulVec (wtilMatrix exampleState 2 2)
                (Matrix.mulVec (Z.toMatrix 2 2) (- exampleState._residuals.toVec 2)) :=
  ⟨exampleState_shape,
    match pseudoInverse_eq exampleState ⟨2, 2, fun _ _ => 0⟩ rfl rfl
      (fun h => by simp [exampleState] at h) with
    | ⟨Z, hZ, _⟩ =>
      ⟨Z, hZ,
        match computeNewtonUpdateEfficient_formula (fun _ _ => 0) exampleState Z 2 2
          exampleState_shape ⟨rfl, rfl⟩ hZ (fun _ => rfl) with
        | ⟨s', x, h, _, hx, _⟩ => ⟨s', x, h, hx⟩⟩⟩

/-- C4, witness: in the worked example, whose preconditioner is the identity,
the Jacobian built at convergence becomes `J_prev`. -/
theorem buildJacobian_carryOver_witness :
    HasShape exampleState 2 2 ∧ IsIdentity exampleState._preconditioner ∧
    ∃ Z, pseudoInverse exampleState ⟨2, 2, fun _ _ => 0⟩ = some Z ∧
      ∃ s' s'', buildJacobian (fun _ _ => 0) exampleState = some s' ∧
        specializedIterationsConverged (fun _ _ => 0) exampleState._qrV [] exampleState._qrV
          exampleState = some s'' ∧
        s''._oldInvJacobian = s'._invJacobian ∧
        s''._oldInvJacobian.toMatrix 2 2
          = exampleState._oldInvJacobian.toMatrix 2 2
            + wtilMatrix exampleState 2 2 * Z.toMatrix 2 2 :=
  ⟨exampleState_shape, ⟨rfl, rfl⟩,
    match pseudoInverse_eq exampleState ⟨2, 2, fun _ _ => 0⟩ rfl rfl
      (fun h => by simp [exampleState] at h) with
    | ⟨Z, hZ, _⟩ =>
      ⟨Z, hZ,
        match buildJacobian_carryOver (fun _ _ => 0) exampleState._qrV exampleState Z 2 2
          exampleState_shape ⟨rfl, rfl⟩ hZ with
        | ⟨s', h, _, _, hconv⟩ =>
          match hconv ⟨rfl, rfl⟩ with
          | ⟨s'', h', hJ, _, hsum, _⟩ => ⟨s', s'', h, h', hJ, hsum⟩⟩⟩

/-- C11, witness: the worked example has `timestepsReused = 0` and no forced
relaxation; the convergence step returns and leaves the stale flag as the
claim says. -/
theorem specializedIterationsConverged_stale_witness :
    0 ≤ exampleState._timestepsReused ∧
    ∃ s', specializedIterationsConverged (fun _ _ => 0) exampleState._qrV []
        exampleState._qrV exampleState = some s' ∧
      (s'._resetLS = true
        ↔ (0 < exampleState._timestepsReused ∨ exampleState._forceInitialRelaxation = true)) :=
  ⟨le_refl _,
    match specializedIterationsConverged_stale (fun _ _ => 0) exampleState._qrV []
      exampleState._qrV exampleState (le_refl _) with
    | ⟨h₁, h₂⟩ =>
      match h₂ rfl rfl rfl rfl with
      | ⟨s', hs'⟩ => ⟨s', hs', h₁ s' hs'⟩⟩

/-- C12, counterexample: in the first iteration and without history reuse,
`specializedIterationsConverged` returns with the four coefficients of the
`2 × 2` matrix `_Wtil` still there. -/
theorem specializedIterationsConverged_discards_counterexample :
    exampleFirst._timestepsReused = 0 ∧ exampleFirst._firstIteration = true ∧
    ∃ s', specializedIterationsConverged (fun _ _ => 0) exampleFirst._qrV []
        exampleFirst._qrV exampleFirst = some s' ∧ s'._Wtil.size = 4 :=
  ⟨rfl, rfl,
    match specializedIterationsConverged_returns (fun _ _ => 0) exampleFirst._qrV
      exampleFirst._qrV exampleFirst rfl rfl rfl with
    | ⟨_, s₂, _, _, _, h⟩ =>
      ⟨revertHistory s₂, h, by
        obtain ⟨hr, hc⟩ := specializedIterationsConverged_Wtil (fun _ _ => 0) exampleFirst._qrV
          exampleFirst._qrV exampleFirst _ rfl h
        rw [MatrixXd.size, hr, hc]
        rfl⟩⟩

/-- C12, witness of the amended claim: in the worked example in its first
iteration the implicit update discards `_Wtil`. -/
theorem computeNewtonUpdateEfficient_discards_witness :
    exampleFirst._firstIteration = true ∧ exampleFirst._timestepsReused = 0 ∧
    exampleFirst._forceInitialRelaxation = false ∧
    ∃ s' xUpdate, computeNewtonUpdateEfficient (fun _ _ => 0) exampleFirst
        = some (s', xUpdate) ∧ s'._Wtil.size = 0 ∧ s'._resetLS = true :=
  ⟨rfl, rfl, rfl,
    match pseudoInverse_eq exampleFirst ⟨2, 2, fun _ _ => 0⟩ rfl rfl
      (fun h => by simp [exampleFirst, exampleState] at h) with
    | ⟨Z, hZ, _⟩ =>
      match computeNewtonUpdateEfficient_discards (fun _ _ => 0) exampleFirst Z rfl rfl rfl hZ
        ⟨rfl, rfl⟩ with
      | ⟨s', x, h, _, _, hsize, hflag⟩ => ⟨s', x, h, hsize, hflag⟩⟩

/-- The worked example of the history bound is reachable. -/
theorem exampleFull_reachable : HistoryReachable exampleState exampleFull :=
  HistoryReachable.update _ _ _ _ (HistoryReachable.update _ _ _ _ HistoryReachable.init)

/-- C6, witness: with the maximum 2 of the worked example, the state after
`initialize` and two updates is reachable and has reached the bound of two
columns; a third update, with the deltas `(5, 6)` and `(7, 8)`, replaces: the
column count stays 2, the new column `w - J_prev * v` is column 0 and the old
column 0 is column 1. -/
theorem history_bound_witness :
    1 ≤ exampleState._maxIterationsUsed ∧ HistoryReachable exampleState exampleFull ∧
    exampleFull._Wtil.cols = 2 ∧ exampleFull._maxIterationsUsed = 2 ∧
    exampleFull._firstIteration = false ∧
    ((updateDifferenceMatrices (vec2 1 1) (vec2 5 6) (vec2 7 8) exampleState._qrV
      exampleFull)._Wtil.cols : Int) ≤ 2 ∧
    (updateDifferenceMatrices (vec2 1 1) (vec2 5 6) (vec2 7 8) exampleState._qrV
      exampleFull)._Wtil.cols = 2 ∧
    (∀ i, (updateDifferenceMatrices (vec2 1 1) (vec2 5 6) (vec2 7 8) exampleState._qrV
      exampleFull)._Wtil.coeff i 0 = (vec2 7 8).coeff i -
        ∑ k in range 2, exampleFull._oldInvJacobian.coeff i k * (vec2 5 6).coeff k) ∧
    (∀ i, (updateDifferenceMatrices (vec2 1 1) (vec2 5 6) (vec2 7 8) exampleState._qrV
      exampleFull)._Wtil.coeff i 1 = exampleFull._Wtil.coeff i 0) :=
  have hw := (history_bound exampleState exampleFull (by decide) exampleFull_reachable).2
    (vec2 1 1) (vec2 5 6) (vec2 7 8) exampleState._qrV _ rfl
  ⟨by decide, exampleFull_reachable, rfl, rfl, rfl, hw.1,
    (hw.2.2.1 rfl).2.1 (by decide), (hw.2.2.1 rfl).2.2.1, fun i => (hw.2.2.1 rfl).2.2.2 i 0⟩

/-- C8, witness: the worked example is outside the first iteration with a
tracked `_Wtil`; after an update `_Wtil` is still `W - J_prev * V`. -/
theorem updateDifferenceMatrices_tracked_witness :
    exampleState._firstIteration = false ∧ HasShape exampleState 2 2 ∧
    WtilTracked exampleState 2 2 ∧
    ∃ s', updateDifferenceMatrices (vec2 1 1) (vec2 1 0) (vec2 0 1) exampleState._qrV
        exampleState = s' ∧
      WtilTracked s' 2 s'._Wtil.cols :=
  ⟨rfl, exampleState_shape, exampleState_tracked,
    match updateDifferenceMatrices_tracked (vec2 1 1) (vec2 1 0) (vec2 0 1) exampleState._qrV
      exampleState 2 2 rfl exampleState_shape exampleState_tracked rfl rfl rfl with
    | ⟨s', h, _, _, _, _, _, _, _, htr, _⟩ => ⟨s', h, htr⟩⟩

/-- C9, witness: column 0 of the worked example, whose stale flag is clear, can
be removed; one column is left in `V`, `W` and `_Wtil`. -/
theorem removeMatrixColumn_spec_witness :
    exampleState._resetLS = false ∧
    ∃ s', removeMatrixColumn 0 exampleState = some s' ∧
      s'._Wtil.cols = 1 ∧ s'._matrixV.cols = 1 ∧ s'._matrixW.cols = 1 :=
  ⟨rfl,
    match (removeMatrixColumn_spec 0 exampleState 2).1 rfl rfl rfl rfl (by decide)
      (by decide) with
    | ⟨s', h, _, hT, hV, hW, _⟩ => ⟨s', h, hT, hV, hW⟩⟩

/-- C10, witness: with the weights `i + 2`, all non-zero, `computeQNUpdate`
returns on the worked example and gives back `J_prev` and `_Wtil` as they
were. -/
theorem computeQNUpdate_frame_witness :
    (∀ i, exampleScaled._preconditioner.weights i ≠ 0) ∧
    ∃ s' xUpdate, computeQNUpdate (fun _ _ => 0) exampleScaled = some (s', xUpdate) ∧
      s'._oldInvJacobian = exampleScaled._oldInvJacobian ∧ s'._Wtil = exampleScaled._Wtil :=
  have hw : ∀ i, exampleScaled._preconditioner.weights i ≠ 0 := fun i => by
    show ((i : ℚ) + 2) ≠ 0
    positivity
  ⟨hw,
    match pseudoInverse_eq exampleScaled ⟨2, 2, fun _ _ => 0⟩ rfl rfl
      (fun h => by simp [exampleScaled, exampleState] at h) with
    | ⟨Z, hZ, _⟩ =>
      match (computeQNUpdate_frame (fun _ _ => 0) exampleScaled hw).2 Z hZ rfl rfl with
      | ⟨s', x, h⟩ =>
        ⟨s', x, h, ((computeQNUpdate_frame (fun _ _ => 0) exampleScaled hw).1 s' x h).1,
          ((computeQNUpdate_frame (fun _ _ => 0) exampleScaled hw).1 s' x h).2 rfl
            (fun hc => by simp [exampleScaled, exampleState] at hc)⟩⟩

section ParserProperties
variable {AttributePair : Type}

theorem modify_append_left {α : Type} (f : α → α) : ∀ (l r : List α) (n : Nat), n < l.length →
    (l ++ r).modify f n = l.modify f n ++ r
  | [], _, _, h => by simp at h
  | a :: l, r, 0, _ => by simp
  | a :: l, r, n + 1, h => by
    have := modify_append_left f l r n (by simpa using h)
    simp [this]

theorem modify_append_length {α : Type} (f : α → α) (l : List α) (a : α) (r : List α) :
    (l ++ a :: r).modify f l.length = l ++ f a :: r := by
  induction l with
  | nil => simp
  | cons b l ih => simp [ih]

theorem deliverAll_append (c : ConfigParser AttributePair) (a b : List (Event AttributePair)) :
    deliverAll c (a ++ b) = (deliverAll c a).bind (fun c => deliverAll c b) := by
  induction a generalizing c with
  | nil => simp [deliverAll]
  | cons e a ih =>
    simp only [List.cons_append, deliverAll]
    cases deliver c e with
    | none => simp
    | some c1 => simpa using ih c1

mutual
theorem Element.layout_length : ∀ (e : Element AttributePair) (base : Nat),
    (e.layout base).length = e.size
  | .mk p n a subs, base => by
    simp [Element.layout, Element.size, layoutList_length subs (base + 1)]; omega
theorem layoutList_length : ∀ (es : List (Element AttributePair)) (base : Nat),
    (layoutList base es).length = sizeList es
  | [], _ => by simp [layoutList, sizeList]
  | e :: es, base => by
    simp [layoutList, sizeList, e.layout_length base, layoutList_length es (base + e.size)]
end

theorem attachSubTags_length (c : ConfigParser AttributePair) (ids : List Nat) :
    (attachSubTags c ids).length = c.tags.length := by
  unfold attachSubTags; split <;> simp

theorem attachSubTags_nil (c : ConfigParser AttributePair) : attachSubTags c [] = c.tags := by
  unfold attachSubTags
  split
  · have : (fun t : CTag AttributePair => { t with m_aSubTags := t.m_aSubTags ++ [] }) = id := by
      funext t; simp
    rw [this, List.modify_id]
  · rfl

theorem OnStartElement_eq (n p : String) (a : AttributePair) (c : ConfigParser AttributePair)
    (hc : TopAllocated c) :
    OnStartElement n p a c =
      ⟨attachSubTags c [c.tags.length] ++ [⟨p, n, a, []⟩], c.m_AllTags ++ [c.tags.length],
        c.m_CurrentTags ++ [c.tags.length]⟩ := by
  unfold OnStartElement attachSubTags
  cases h : c.m_CurrentTags.getLast? with
  | none => rfl
  | some P =>
    simp only [pushSubTag]
    rw [modify_append_left _ _ _ _ (hc P h)]

theorem attachSubTags_open (T : List (CTag AttributePair)) (t : CTag AttributePair) (A cur ids : List Nat) :
    attachSubTags ⟨T ++ [t], A, cur ++ [T.length]⟩ ids =
      T ++ [{ t with m_aSubTags := t.m_aSubTags ++ ids }] := by
  unfold attachSubTags
  have h : (cur ++ [T.length]).getLast? = some T.length := by simp
  simp only [h]
  exact modify_append_length _ T t []

theorem attachSubTags_attach (c : ConfigParser AttributePair) (hc : TopAllocated c) (ids ids' A : List Nat)
    (L : List (CTag AttributePair)) :
    attachSubTags ⟨attachSubTags c ids ++ L, A, c.m_CurrentTags⟩ ids' = attachSubTags c (ids ++ ids') ++ L := by
  unfold attachSubTags
  cases h : c.m_CurrentTags.getLast? with
  | none => rfl
  | some P =>
    simp only
    rw [modify_append_left _ _ _ _ (by simpa using hc P h), List.modify_modify_eq]
    congr 2
    funext t
    simp

theorem OnEndElement_open (T : List (CTag AttributePair)) (A cur : List Nat) (p : Nat) :
    OnEndElement (⟨T, A, cur ++ [p]⟩ : ConfigParser AttributePair) = some ⟨T, A, cur⟩ := by
  simp [OnEndElement]

mutual
theorem deliverAll_element : ∀ (e : Element AttributePair) (c : ConfigParser AttributePair),
    TopAllocated c →
    deliverAll c e.events =
      some ⟨attachSubTags c [c.tags.length] ++ e.layout c.tags.length,
        c.m_AllTags ++ List.range' c.tags.length e.size, c.m_CurrentTags⟩
  | .mk p n a subs, c, hc => by
    have h1 : TopAllocated (⟨attachSubTags c [c.tags.length] ++ [⟨p, n, a, []⟩],
        c.m_AllTags ++ [c.tags.length], c.m_CurrentTags ++ [c.tags.length]⟩ :
        ConfigParser AttributePair) := by
      intro q hq
      simp at hq
      simp [attachSubTags_length, ← hq]
    have ih := deliverAll_eventsList subs _ h1
    have hlen : (attachSubTags c [c.tags.length] ++ [(⟨p, n, a, []⟩ : CTag AttributePair)]).length =
        c.tags.length + 1 := by simp [attachSubTags_length]
    have hopen := attachSubTags_open (attachSubTags c [c.tags.length]) (⟨p, n, a, []⟩ : CTag AttributePair)
      (c.m_AllTags ++ [c.tags.length]) c.m_CurrentTags (childIds (c.tags.length + 1) subs)
    rw [attachSubTags_length] at hopen
    simp only [hlen] at ih
    rw [hopen] at ih
    simp only [Element.events, deliverAll, deliver]
    rw [OnStartElement_eq n p a c hc, deliverAll_append, ih]
    simp only [Option.some_bind, deliverAll, deliver]
    rw [OnEndElement_open]
    simp [Element.layout, Element.size, List.range'_succ, Nat.add_comm 1]
theorem deliverAll_eventsList : ∀ (es : List (Element AttributePair))
    (c : ConfigParser AttributePair), TopAllocated c →
    deliverAll c (eventsList es) =
      some ⟨attachSubTags c (childIds c.tags.length es) ++ layoutList c.tags.length es,
        c.m_AllTags ++ List.range' c.tags.length (sizeList es), c.m_CurrentTags⟩
  | [], c, _ => by
    simp [eventsList, deliverAll, childIds, layoutList, sizeList, attachSubTags_nil]
  | e :: es, c, hc => by
    have h1 := deliverAll_element e c hc
    have hc1 : TopAllocated (⟨attachSubTags c [c.tags.length] ++ e.layout c.tags.length,
        c.m_AllTags ++ List.range' c.tags.length e.size, c.m_CurrentTags⟩ :
        ConfigParser AttributePair) := by
      intro q hq
      have := hc q hq
      simp [attachSubTags_length]; omega
    have h2 := deliverAll_eventsList es _ hc1
    have hlen : (attachSubTags c [c.tags.length] ++ e.layout c.tags.length).length =
        c.tags.length + e.size := by simp [attachSubTags_length, e.layout_length]
    simp only [hlen] at h2
    rw [attachSubTags_attach c hc] at h2
    simp only [eventsList]
    rw [deliverAll_append, h1, Option.some_bind, h2]
    simp [childIds, layoutList, sizeList, List.range'_append, Nat.add_comm]
end

theorem deliverAll_document (doc : Element AttributePair) :
    deliverAll ConfigParser.fresh doc.events = some ⟨doc.layout 0, List.range doc.size, []⟩ := by
  have h := deliverAll_element doc (ConfigParser.fresh : ConfigParser AttributePair)
    (by intro p hp; simp [ConfigParser.fresh] at hp)
  rw [h]
  simp [ConfigParser.fresh, attachSubTags, List.range_eq_range']

theorem map_getElem?_range {α : Type} (l : List α) :
    (List.range l.length).map (fun p => l[p]?) = l.map some := by
  apply List.ext_getElem
  · simp
  · intro i h1 h2
    simp at h1
    simp [h1]

mutual
theorem Element.layout_startEvent : ∀ (e : Element AttributePair) (base : Nat),
    (e.layout base).map CTag.startEvent = e.events.filter Event.isStart
  | .mk p n a subs, base => by
    simp [Element.layout, Element.events, CTag.startEvent, Event.isStart,
      layoutList_startEvent subs (base + 1)]
theorem layoutList_startEvent : ∀ (es : List (Element AttributePair)) (base : Nat),
    (layoutList base es).map CTag.startEvent = (eventsList es).filter Event.isStart
  | [], _ => by simp [layoutList, eventsList]
  | e :: es, base => by
    simp [layoutList, eventsList, e.layout_startEvent base,
      layoutList_startEvent es (base + e.size)]
end

theorem Element.size_pos (e : Element AttributePair) : 0 < e.size := by
  cases e; simp [Element.size]

theorem occurrences_append (a b : List (CTag AttributePair)) (p : Nat) :
    occurrences (a ++ b) p = occurrences a p + occurrences b p := by
  simp [occurrences]

mutual
theorem Element.layout_occurrences : ∀ (e : Element AttributePair) (base p : Nat),
    occurrences (e.layout base) p = if base < p ∧ p < base + e.size then 1 else 0
  | .mk q n a subs, base, p => by
    have ih := layoutList_occurrences subs (base + 1) p
    simp only [Element.layout, Element.size]
    have h : occurrences ((⟨q, n, a, childIds (base + 1) subs⟩ : CTag AttributePair) ::
        layoutList (base + 1) subs) p =
        occurrences (layoutList (base + 1) subs) p + (childIds (base + 1) subs).count p := by
      simp [occurrences, Nat.add_comm]
    rw [h, ih]
    congr 1
    apply propext
    constructor <;> intro h <;> omega
theorem layoutList_occurrences : ∀ (es : List (Element AttributePair)) (base p : Nat),
    occurrences (layoutList base es) p + (childIds base es).count p =
      if base ≤ p ∧ p < base + sizeList es then 1 else 0
  | [], base, p => by
    have h : ¬ (base ≤ p ∧ p < base) := by omega
    simp [layoutList, childIds, sizeList, occurrences, h]
  | e :: es, base, p => by
    have h1 := e.layout_occurrences base p
    have h2 := layoutList_occurrences es (base + e.size) p
    have hpos := e.size_pos
    simp only [layoutList, childIds, sizeList, occurrences_append, List.count_cons]
    rw [h1]
    by_cases hb : base = p
    · subst hb
      have h0 : ¬ (base + e.size ≤ base ∧ base < base + e.size + sizeList es) := by omega
      rw [if_neg h0] at h2
      have h3 : ¬ (base < base ∧ base < base + e.size) := by omega
      have h4 : base ≤ base ∧ base < base + (e.size + sizeList es) := by omega
      rw [if_neg h3, if_pos h4]
      simp
      omega
    · have hbeq : (base == p) = false := by simpa using hb
      simp only [hbeq]
      by_cases hA : base < p ∧ p < base + e.size
      · have h0 : ¬ (base + e.size ≤ p ∧ p < base + e.size + sizeList es) := by omega
        rw [if_neg h0] at h2
        have h4 : base ≤ p ∧ p < base + (e.size + sizeList es) := by omega
        rw [if_pos hA, if_pos h4]
        simp
        omega
      · rw [if_neg hA]
        by_cases hB : base + e.size ≤ p ∧ p < base + e.size + sizeList es
        · rw [if_pos hB] at h2
          have h4 : base ≤ p ∧ p < base + (e.size + sizeList es) := by omega
          rw [if_pos h4]
          simp
          omega
        · rw [if_neg hB] at h2
          have h4 : ¬ (base ≤ p ∧ p < base + (e.size + sizeList es)) := by omega
          rw [if_neg h4]
          simp
          omega
end

theorem nestingDepth_nil : nestingDepth ([] : List (Event AttributePair)) = 0 := by
  simp [nestingDepth]

theorem nestingDepth_start (n p : String) (a : AttributePair) (es : List (Event AttributePair)) :
    nestingDepth (Event.startElement n p a :: es) = nestingDepth es + 1 := by
  simp [nestingDepth, Event.isStart]; ring

theorem nestingDepth_end (es : List (Event AttributePair)) :
    nestingDepth (Event.endElement :: es) = nestingDepth es - 1 := by
  simp [nestingDepth, Event.isStart]; ring

theorem deliverAll_depth : ∀ (es : List (Event AttributePair)) (c c' : ConfigParser AttributePair),
    deliverAll c es = some c' →
    (c'.m_CurrentTags.length : Int) = c.m_CurrentTags.length + nestingDepth es
  | [], c, c', h => by
    simp [deliverAll] at h
    simp [h, nestingDepth_nil]
  | .startElement n p a :: es, c, c', h => by
    simp only [deliverAll, deliver] at h
    have := deliverAll_depth es _ c' h
    rw [this, nestingDepth_start]
    simp [OnStartElement]
    ring
  | .endElement :: es, c, c', h => by
    simp only [deliverAll, deliver] at h
    unfold OnEndElement at h
    by_cases hc : c.m_CurrentTags = []
    · simp [hc] at h
    · simp only [hc, if_false] at h
      have := deliverAll_depth es _ c' h
      rw [this, nestingDepth_end]
      have hpos : 0 < c.m_CurrentTags.length := List.length_pos.mpr hc
      simp only [List.length_dropLast]
      omega

theorem deliverAll_take (es : List (Event AttributePair)) (c c' : ConfigParser AttributePair)
    (h : deliverAll c es = some c') (k : Nat) : ∃ c'', deliverAll c (es.take k) = some c'' := by
  rw [← List.take_append_drop k es, deliverAll_append] at h
  cases h1 : deliverAll c (es.take k) with
  | none => simp [h1] at h
  | some c'' => exact ⟨c'', rfl⟩

mutual
theorem readElement_layout : ∀ (e : Element AttributePair) (tags : List (CTag AttributePair))
    (base fuel : Nat), (∀ i, i < e.size → tags[base + i]? = (e.layout base)[i]?) →
    e.size ≤ fuel → readElement tags fuel base = some e
  | .mk p n a subs, tags, base, 0, _, hf => by simp [Element.size] at hf
  | .mk p n a subs, tags, base, fuel + 1, h, hf => by
    have h0 := h 0 (by simp [Element.size])
    simp only [Element.layout, Nat.add_zero, List.getElem?_cons_zero] at h0
    have ih := readElement_layoutList subs tags (base + 1) fuel
      (by
        intro i hi
        have := h (i + 1) (by simp [Element.size]; omega)
        simpa [Element.layout, Nat.add_assoc, Nat.add_comm 1] using this)
      (by simp [Element.size] at hf; omega)
    simp only [readElement, h0, ih]
theorem readElement_layoutList : ∀ (es : List (Element AttributePair))
    (tags : List (CTag AttributePair)) (base fuel : Nat),
    (∀ i, i < sizeList es → tags[base + i]? = (layoutList base es)[i]?) →
    sizeList es ≤ fuel → (childIds base es).mapM (readElement tags fuel) = some es
  | [], _, _, _, _, _ => rfl
  | e :: es, tags, base, fuel, h, hf => by
    have h1 := readElement_layout e tags base fuel
      (by
        intro i hi
        have := h i (by simp [sizeList]; omega)
        rw [this]
        simp only [layoutList]
        rw [List.getElem?_append_left (by simpa [e.layout_length] using hi)])
      (by simp [sizeList] at hf; omega)
    have h2 := readElement_layoutList es tags (base + e.size) fuel
      (by
        intro i hi
        have := h (e.size + i) (by simp [sizeList]; omega)
        rw [Nat.add_assoc, this]
        simp only [layoutList]
        rw [List.getElem?_append_right (by simp [e.layout_length])]
        simp [e.layout_length])
      (by simp [sizeList] at hf; omega)
    rw [childIds, List.mapM_cons, h1, h2]
    rfl
end

/-- C14 (XML element tree construction). For every document `doc`, delivering its
well-nested sequence of `OnStartElement` / `OnEndElement` events to a fresh
`ConfigParser` succeeds, and afterwards: the tags that `m_AllTags` points to are
the tags of all elements of the document in document order, their data in the
order of the start events; `m_AllTags[0]` is the root, and following the
`m_aSubTags` pointers from it reads back the whole document, so that the
`m_aSubTags` of every element are its direct children in document order; every
pointer other than the root occurs exactly once in all the `m_aSubTags` together,
the root in none; after every initial part of the sequence the length of
`m_CurrentTags` is the nesting depth; and `m_CurrentTags` is empty at the end. -/
theorem deliverAll_tree (doc : Element AttributePair) :
    ∃ c : ConfigParser AttributePair, deliverAll ConfigParser.fresh doc.events = some c ∧
      c.m_AllTags.map c.deref = (doc.layout 0).map some ∧
      (c.m_AllTags.filterMap c.deref).map CTag.startEvent = doc.events.filter Event.isStart ∧
      c.m_AllTags.length = doc.size ∧
      (∃ root, c.m_AllTags[0]? = some root ∧ readElement c.tags doc.size root = some doc) ∧
      (∀ p, p ∈ c.m_AllTags → c.m_AllTags[0]? ≠ some p → occurrences c.tags p = 1) ∧
      (∀ p, c.m_AllTags[0]? = some p → occurrences c.tags p = 0) ∧
      (∀ k, ∃ c', deliverAll ConfigParser.fresh (doc.events.take k) = some c' ∧
        (c'.m_CurrentTags.length : Int) = nestingDepth (doc.events.take k)) ∧
      c.m_CurrentTags = [] := by
  have hrun := deliverAll_document doc
  have hderef : (List.range doc.size).map (fun p => (doc.layout 0)[p]?) = (doc.layout 0).map some := by
    have := map_getElem?_range (doc.layout 0)
    rwa [doc.layout_length] at this
  have hpos := doc.size_pos
  have h0 : (List.range doc.size)[0]? = some 0 := by
    rw [List.getElem?_range hpos]
  refine ⟨_, hrun, hderef, ?_, by simp, ⟨0, h0, ?_⟩, ?_, ?_, ?_, rfl⟩
  · have h : (List.range doc.size).filterMap (fun p => (doc.layout 0)[p]?) = doc.layout 0 := by
      have := congrArg (List.filterMap id) hderef
      simpa [List.filterMap_map] using this
    show ((List.range doc.size).filterMap (fun p => (doc.layout 0)[p]?)).map CTag.startEvent = _
    rw [h, doc.layout_startEvent]
  · exact readElement_layout doc _ 0 doc.size (by intro i _; simp) (Nat.le_refl _)
  · intro p hp hne
    have hp' : p < doc.size := by simpa using hp
    have hp0 : 0 < p := by
      rcases Nat.eq_zero_or_pos p with h | h
      · subst h; exact absurd h0 hne
      · exact h
    show occurrences (doc.layout 0) p = 1
    rw [doc.layout_occurrences]
    simp [hp0, hp']
  · intro p hp
    have : p = 0 := by
      have := hp.symm.trans h0
      simpa using this
    subst this
    show occurrences (doc.layout 0) 0 = 0
    rw [doc.layout_occurrences]
    simp
  · intro k
    obtain ⟨c', hc'⟩ := deliverAll_take _ _ _ hrun k
    refine ⟨c', hc', ?_⟩
    have := deliverAll_depth _ _ _ hc'
    simpa [ConfigParser.fresh] using this

end ParserProperties

/-! ### Matching the element tree with the tag definitions -/

section ConnectProperties
variable {AttributePair ε : Type}

theorem Matches.fullName {DefTags : List XMLTag} {e : Element AttributePair} {d : XMLTag}
    (h : Matches DefTags e d) : d._fullName = e.fullName := by
  obtain ⟨_, _, _, h, _⟩ := h
  exact h

end ConnectProperties

end precice
